import Mathlib

/-!
# polyfit_cpp : `PolyfitEigen.hpp`

Shallow embedding of the two function templates of `src/PolyfitEigen.hpp`,
`polyfit_Eigen` and `polyval`, in exact arithmetic: the scalar type `T` (and
Eigen's `float`) is an arbitrary linearly ordered field `K` (for instance `ℚ`,
on which every definition below evaluates).

Conventions of the embedding.

* `std::vector<T>` is `List K`; an Eigen matrix is the list of its rows.
* Every subscript `v[i]` of the source is a checked read `v[i]?` and every
  assignment `M(i, j) = a` / `v[i] = a` is a checked write (`writeAt`,
  `writeAt2`): the functions return `Option`, and `none` stands for an access
  outside the bounds of a container (undefined behaviour in C++).
* Each `for` loop is a recursive function whose first numeric argument is the
  number of iterations still to run and whose second is the loop counter.
* `degree` is a `const int` in the source; the embedding takes its non-negative
  range as `Nat` (`numCoefficients = degree + 1` without wrap-around).
* The two Eigen solvers (`jacobiSvd(...).solve`, `colPivHouseholderQr().solve`)
  live in the external Eigen library.  They are parameters of the embedding
  (`DenseSolver`); what is assumed of them is stated as hypotheses of the
  theorems, only at the system that the call assembles.
* The source computes in floating point: products are rounded in `T` and the
  entries of `X` and `Y` are stored as `float` (`MatrixXf`).  The definitions
  `fillYRounded`, `fillXRowRounded` and `fillXRounded` repeat the assembly loops
  with these two roundings as parameters; with both the identity they are the
  exact loops (`assembleXRounded_id`, `assembleYRounded_id`), and with IEEE 754
  rounding (`roundF32`, `roundF64`) they show where a statement holds in exact
  arithmetic only.
-/

namespace PolyfitEigen

variable {K : Type} [LinearOrderedField K]

/-! ## Containers -/

/-- Checked write `v[i] = a` into a vector of fixed size. -/
def writeAt {α : Type} (v : List α) (i : Nat) (a : α) : Option (List α) :=
  if i < v.length then some (v.set i a) else none

/-- Checked write `M(r, c) = a` into a matrix stored as the list of its rows. -/
def writeAt2 {α : Type} (M : List (List α)) (r c : Nat) (a : α) : Option (List (List α)) := do
  let row ← M[r]?
  let row' ← writeAt row c a
  pure (M.set r row')

/-- Checked read `M(r, c)` of a matrix stored as the list of its rows. -/
def entry {α : Type} (M : List (List α)) (r c : Nat) : Option α := do
  let row ← M[r]?
  row[c]?

/-- Freshly allocated `rows × cols` matrix (`MatrixXf X(rows, cols)`); the
unspecified initial contents are taken to be `0`. -/
def newMatrix (rows cols : Nat) : List (List K) :=
  List.replicate rows (List.replicate cols 0)

/-- Freshly allocated `rows × 1` matrix (`MatrixXf Y(rows, 1)`), kept as the list
of its entries; the unspecified initial contents are taken to be `0`. -/
def newVector (rows : Nat) : List K :=
  List.replicate rows 0

/-! ## The external dense solver -/

/-- The two Eigen least-squares solvers used by `polyfit_Eigen`, as parameters:
each maps the matrix `X` and the right-hand side `Y` to the solution vector. -/
structure DenseSolver (K : Type) where
  /-- Solver `X.jacobiSvd(ComputeThinU | ComputeThinV).solve(Y)`. -/
  jacobiSvdSolve : List (List K) → List K → List K
  /-- Solver `X.colPivHouseholderQr().solve(Y)`. -/
  colPivHouseholderQrSolve : List (List K) → List K → List K

/-- Lines 49-53: the solution vector `coefficients` chosen by `useJacobi`. -/
def DenseSolver.solve (S : DenseSolver K) (useJacobi : Bool) (X : List (List K)) (Y : List K) :
    List K :=
  if useJacobi then S.jacobiSvdSolve X Y else S.colPivHouseholderQrSolve X Y

/-! ## `polyfit_Eigen` -/

/-- Line 18: `weights.size() > 0 && weights.size() == xValues.size()`. -/
def useWeights (weights xValues : List K) : Bool :=
  decide (weights.length > 0) && decide (weights.length = xValues.length)

/-- Lines 27-33, the loop filling `Y`: `n` iterations left, counter `i`. -/
def fillY (useW : Bool) (yValues weights : List K) : Nat → Nat → List K → Option (List K)
  | 0, _, Y => some Y
  | n + 1, i, Y =>
    if useW then do
      let y ← yValues[i]?
      let w ← weights[i]?
      let Y' ← writeAt Y i (y * w)
      fillY useW yValues weights n (i + 1) Y'
    else do
      let y ← yValues[i]?
      let Y' ← writeAt Y i y
      fillY useW yValues weights n (i + 1) Y'

/-- Lines 39-46, the inner loop filling row `nRow` of `X`: `n` iterations left,
counter `nCol`, running power `nVal`. -/
def fillXRow (useW : Bool) (xValues weights : List K) (nRow : Nat) :
    Nat → Nat → K → List (List K) → Option (List (List K))
  | 0, _, _, X => some X
  | n + 1, nCol, nVal, X => do
    let X' ← if useW then do
        let w ← weights[nRow]?
        writeAt2 X nRow nCol (nVal * w)
      else
        writeAt2 X nRow nCol nVal
    let x ← xValues[nRow]?
    fillXRow useW xValues weights nRow n (nCol + 1) (nVal * x) X'

/-- Lines 36-47, the outer loop filling `X`: `n` iterations left, counter `nRow`;
each row starts with `nVal = 1`. -/
def fillX (useW : Bool) (xValues weights : List K) (numCoefficients : Nat) :
    Nat → Nat → List (List K) → Option (List (List K))
  | 0, _, X => some X
  | n + 1, nRow, X => do
    let X' ← fillXRow useW xValues weights nRow numCoefficients 0 1 X
    fillX useW xValues weights numCoefficients n (nRow + 1) X'

/-- Lines 23-33: the target vector `Y` of a call. -/
def assembleY (xValues yValues weights : List K) : Option (List K) :=
  let nCount := xValues.length
  fillY (useWeights weights xValues) yValues weights nCount 0 (newVector nCount)

/-- Lines 23, 35-47: the design matrix `X` of a call. -/
def assembleX (xValues : List K) (degree : Nat) (weights : List K) : Option (List (List K)) :=
  let numCoefficients := degree + 1
  let nCount := xValues.length
  fillX (useWeights weights xValues) xValues weights numCoefficients nCount 0
    (newMatrix nCount numCoefficients)

/-- Lines 18-47: the system `(X, Y)` assembled by a call, `Y` first as in the
source. -/
def assemble (xValues yValues : List K) (degree : Nat) (weights : List K) :
    Option (List (List K) × List K) := do
  let Y ← assembleY xValues yValues weights
  let X ← assembleX xValues degree weights
  pure (X, Y)

/-- Line 55: `std::vector<T>(coefficients.data(), coefficients.data() + numCoefficients)`,
the first `numCoefficients` entries of the solution vector. -/
def firstEntries (coefficients : List K) (numCoefficients : Nat) : Option (List K) :=
  if numCoefficients ≤ coefficients.length then some (coefficients.take numCoefficients)
  else none

/-- Function `polyfit_Eigen` (lines 13-56). -/
def polyfit_Eigen (S : DenseSolver K) (xValues yValues : List K) (degree : Nat)
    (weights : List K) (useJacobi : Bool) : Option (List K) := do
  let (X, Y) ← assemble xValues yValues degree weights
  let coefficients := S.solve useJacobi X Y
  firstEntries coefficients (degree + 1)

/-! ## `polyval` -/

/-- Lines 82-88, the inner loop of `polyval`: `n` iterations left, counter `j`,
accumulator `yVal`, running power `xPowered`. -/
def polyvalInner (coefficients : List K) (xVal : K) : Nat → Nat → K → K → Option K
  | 0, _, yVal, _ => some yVal
  | n + 1, j, yVal, xPowered => do
    let c ← coefficients[j]?
    polyvalInner coefficients xVal n (j + 1) (yVal + c * xPowered) (xPowered * xVal)

/-- Lines 77-90, the outer loop of `polyval`: `n` iterations left, counter `i`. -/
def polyvalOuter (coefficients xValues : List K) : Nat → Nat → List K → Option (List K)
  | 0, _, yValues => some yValues
  | n + 1, i, yValues => do
    let xVal ← xValues[i]?
    let yVal ← polyvalInner coefficients xVal coefficients.length 0 0 1
    let yValues' ← writeAt yValues i yVal
    polyvalOuter coefficients xValues n (i + 1) yValues'

/-- Function `polyval` (lines 70-93); `std::vector<T> yValues(nCount)` is
value-initialised, that is, filled with `0`. -/
def polyval (coefficients xValues : List K) : Option (List K) :=
  let nCount := xValues.length
  polyvalOuter coefficients xValues nCount 0 (List.replicate nCount 0)

/-! ## Least squares (the contract of the external solver) -/

/-- Inner product of a matrix row with a coefficient vector. -/
def dot : List K → List K → K
  | a :: as, b :: bs => a * b + dot as bs
  | _, _ => 0

/-- Squared residual norm `‖X·c − Y‖²`. -/
def residualSq : List (List K) → List K → List K → K
  | row :: X, y :: Y, c => (dot row c - y) ^ 2 + residualSq X Y c
  | _, _, _ => 0

/-- Vector `c` is a least-squares solution of `X·c = Y` with `m` unknowns: it
has `m` entries and no vector of `m` entries has a smaller residual norm. -/
def IsLeastSquares (X : List (List K)) (Y : List K) (m : Nat) (c : List K) : Prop :=
  c.length = m ∧ ∀ c' : List K, c'.length = m → residualSq X Y c ≤ residualSq X Y c'

/-- Value `∑_{j < len c} c[j] * x^j` of the polynomial with ascending
coefficients `c`. -/
def polyEval (c : List K) (x : K) : K :=
  ∑ j ∈ Finset.range c.length, c.getD j 0 * x ^ j

/-- Horner's high-to-low evaluation `c[0] + x * (c[1] + x * (... + x * c[n-1]))`,
the alternative evaluator named by the specification (it is not in the source). -/
def horner : List K → K → K
  | [], _ => 0
  | a :: as, x => a + x * horner as x

/-! ## Closed forms and the weighted residual -/

/-- Closed form of the design matrix, row `i` being the ascending powers of
`xValues[i]`, each scaled by `weights[i]` when weighting is active; the loop of
`assembleX` is proved to compute it (`assembleX_eq`). -/
def designRows (weights xValues : List K) (degree : Nat) : List (List K) :=
  (List.range xValues.length).map fun i => (List.range (degree + 1)).map fun k =>
    if useWeights weights xValues then xValues.getD i 0 ^ k * weights.getD i 0
    else xValues.getD i 0 ^ k

/-- Closed form of the target vector; the loop of `assembleY` is proved to
compute it (`assembleY_eq`). -/
def targetEntries (weights xValues yValues : List K) : List K :=
  (List.range xValues.length).map fun i =>
    if useWeights weights xValues then yValues.getD i 0 * weights.getD i 0
    else yValues.getD i 0

/-- Weight applied to sample `i`: `weights[i]` when weighting is active, read
as `1` when it is not. -/
def weightAt (weights xValues : List K) (i : Nat) : K :=
  if useWeights weights xValues then weights.getD i 0 else 1

/-- Weighted sum of squared residuals `∑_i weights[i]² * (yValues[i] − p[i])²`
of the fitted values `p`. -/
def weightedSumSq (weights xValues yValues p : List K) : K :=
  ∑ i ∈ Finset.range xValues.length,
    weightAt weights xValues i ^ 2 * (yValues.getD i 0 - p.getD i 0) ^ 2

/-! ## Floating-point rounding made explicit -/

/-- Integer nearest to `t`, a tie going to the even neighbour. -/
def roundHalfEven (t : ℚ) : ℤ :=
  if t - ⌊t⌋ < 1 / 2 then ⌊t⌋
  else if 1 / 2 < t - ⌊t⌋ then ⌊t⌋ + 1
  else if ⌊t⌋ % 2 = 0 then ⌊t⌋ else ⌊t⌋ + 1

/-- IEEE 754 rounding to nearest, ties to even, of a finite value `q` to the
binary format with `p` significand bits and least normal exponent `emin`: the
spacing of the format around `q` is `2 ^ (e - (p - 1))`, `e` being the exponent
of `q`, not below `emin`.  Overflow to infinity is outside the model. -/
def roundBinary (p : Nat) (emin : Int) (q : ℚ) : ℚ :=
  if q = 0 then 0
  else roundHalfEven (q / 2 ^ (max (Int.log 2 |q|) emin - ((p : Int) - 1)))
    * 2 ^ (max (Int.log 2 |q|) emin - ((p : Int) - 1))

/-- Rounding to `float` (binary32), the scalar type of `MatrixXf`. -/
def roundF32 (q : ℚ) : ℚ := roundBinary 24 (-126) q

/-- Rounding to `double` (binary64). -/
def roundF64 (q : ℚ) : ℚ := roundBinary 53 (-1022) q

/-- Loop of lines 27-33 with the rounding of the source made explicit: `rndT`
rounds a product computed in the scalar type `T`, `store` narrows a value to the
`float` held by `MatrixXf`.  With both the identity this is `fillY`. -/
def fillYRounded (rndT store : K → K) (useW : Bool) (yValues weights : List K) :
    Nat → Nat → List K → Option (List K)
  | 0, _, Y => some Y
  | n + 1, i, Y =>
    if useW then do
      let y ← yValues[i]?
      let w ← weights[i]?
      let Y' ← writeAt Y i (store (rndT (y * w)))
      fillYRounded rndT store useW yValues weights n (i + 1) Y'
    else do
      let y ← yValues[i]?
      let Y' ← writeAt Y i (store y)
      fillYRounded rndT store useW yValues weights n (i + 1) Y'

/-- Loop of lines 39-46 with the rounding of the source made explicit, as in
`fillYRounded`.  With both roundings the identity this is `fillXRow`. -/
def fillXRowRounded (rndT store : K → K) (useW : Bool) (xValues weights : List K) (nRow : Nat) :
    Nat → Nat → K → List (List K) → Option (List (List K))
  | 0, _, _, X => some X
  | n + 1, nCol, nVal, X => do
    let X' ← if useW then do
        let w ← weights[nRow]?
        writeAt2 X nRow nCol (store (rndT (nVal * w)))
      else
        writeAt2 X nRow nCol (store nVal)
    let x ← xValues[nRow]?
    fillXRowRounded rndT store useW xValues weights nRow n (nCol + 1) (rndT (nVal * x)) X'

/-- Loop of lines 36-47 with the rounding of the source made explicit. -/
def fillXRounded (rndT store : K → K) (useW : Bool) (xValues weights : List K)
    (numCoefficients : Nat) : Nat → Nat → List (List K) → Option (List (List K))
  | 0, _, X => some X
  | n + 1, nRow, X => do
    let X' ← fillXRowRounded rndT store useW xValues weights nRow numCoefficients 0 1 X
    fillXRounded rndT store useW xValues weights numCoefficients n (nRow + 1) X'

/-- Target vector `Y` of a call (lines 23-33) under the roundings `rndT` and
`store`. -/
def assembleYRounded (rndT store : K → K) (xValues yValues weights : List K) :
    Option (List K) :=
  let nCount := xValues.length
  fillYRounded rndT store (useWeights weights xValues) yValues weights nCount 0
    (newVector nCount)

/-- Design matrix `X` of a call (lines 23, 35-47) under the roundings `rndT` and
`store`. -/
def assembleXRounded (rndT store : K → K) (xValues : List K) (degree : Nat)
    (weights : List K) : Option (List (List K)) :=
  let numCoefficients := degree + 1
  let nCount := xValues.length
  fillXRounded rndT store (useWeights weights xValues) xValues weights numCoefficients
    nCount 0 (newMatrix nCount numCoefficients)

/-! ## The loops in closed form -/

theorem writeAt_append {α : Type} (pre : List α) (r : α) (rest : List α) (a : α) :
    writeAt (pre ++ r :: rest) pre.length a = some (pre ++ a :: rest) := by
  simp [writeAt]

theorem writeAt2_append {α : Type} (Mpre : List (List α)) (pre : List α) (r : α)
    (rest : List α) (Mpost : List (List α)) (a : α) :
    writeAt2 (Mpre ++ (pre ++ r :: rest) :: Mpost) Mpre.length pre.length a
      = some (Mpre ++ (pre ++ a :: rest) :: Mpost) := by
  have h : (Mpre ++ (pre ++ r :: rest) :: Mpost)[Mpre.length]? = some (pre ++ r :: rest) := by
    rw [List.getElem?_append_right (le_refl _)]
    simp
  simp only [writeAt2, h, Option.bind_eq_bind, Option.some_bind, writeAt_append]
  simp

theorem getElem?_getD_of_lt (v : List K) (i : Nat) (h : i < v.length) :
    v[i]? = some (v.getD i 0) := by
  simp [List.getD_eq_getElem?_getD, List.getElem?_eq_getElem h]

/-- Value stored in `Y(i, 0)` by the loop of lines 27-33. -/
theorem fillY_loop (useW : Bool) (y w : List K) :
    ∀ (n i : Nat) (pre rest : List K), pre.length = i → rest.length = n →
      i + n ≤ y.length → (useW = true → i + n ≤ w.length) →
      fillY useW y w n i (pre ++ rest)
        = some (pre ++ (List.range' i n).map
            (fun k => if useW then y.getD k 0 * w.getD k 0 else y.getD k 0)) := by
  intro n
  induction n with
  | zero =>
    intro i pre rest _ hrest _ _
    have : rest = [] := List.length_eq_zero.mp hrest
    simp [fillY, this]
  | succ n ih =>
    intro i pre rest hpre hrest hy hw
    obtain ⟨r, rest', rfl⟩ := List.exists_cons_of_length_eq_add_one hrest
    have hyi : y[i]? = some (y.getD i 0) := getElem?_getD_of_lt y i (by omega)
    have hlen : rest'.length = n := by simpa using hrest
    cases useW with
    | false =>
      have := ih (i + 1) (pre ++ [y.getD i 0]) rest' (by simp [hpre]) hlen (by omega) (by simp)
      subst hpre
      simp only [fillY, hyi, Bool.false_eq_true, if_false, Option.bind_eq_bind, Option.some_bind, writeAt_append]
      simpa [List.range'_succ] using this
    | true =>
      have hwi : w[i]? = some (w.getD i 0) := getElem?_getD_of_lt w i (by have := hw rfl; omega)
      have := ih (i + 1) (pre ++ [y.getD i 0 * w.getD i 0]) rest' (by simp [hpre]) hlen (by omega)
        (by intro _; have := hw rfl; omega)
      subst hpre
      simp only [fillY, hyi, hwi, if_true, Option.bind_eq_bind, Option.some_bind, writeAt_append]
      simpa [List.range'_succ] using this

/-- Entry stored in column `nCol + k` by the loop of lines 39-46 started with
running power `nVal`. -/
theorem fillXRow_loop (useW : Bool) (x w : List K) (nRow : Nat) (hx : nRow < x.length)
    (hw : useW = true → nRow < w.length) :
    ∀ (n nCol : Nat) (nVal : K) (Xpre Xpost : List (List K)) (pre rest : List K),
      Xpre.length = nRow → pre.length = nCol → rest.length = n →
      fillXRow useW x w nRow n nCol nVal (Xpre ++ (pre ++ rest) :: Xpost)
        = some (Xpre ++ (pre ++ (List.range n).map
            (fun k => if useW then nVal * x.getD nRow 0 ^ k * w.getD nRow 0
              else nVal * x.getD nRow 0 ^ k)) :: Xpost) := by
  have hxi : x[nRow]? = some (x.getD nRow 0) := getElem?_getD_of_lt x nRow hx
  intro n
  induction n with
  | zero =>
    intro nCol nVal Xpre Xpost pre rest _ _ hrest
    have : rest = [] := List.length_eq_zero.mp hrest
    simp [fillXRow, this]
  | succ n ih =>
    intro nCol nVal Xpre Xpost pre rest hXpre hpre hrest
    obtain ⟨r, rest', rfl⟩ := List.exists_cons_of_length_eq_add_one hrest
    have hlen : rest'.length = n := by simpa using hrest
    cases useW with
    | false =>
      have := ih (nCol + 1) (nVal * x.getD nRow 0) Xpre Xpost (pre ++ [nVal]) rest' hXpre
        (by simp [hpre]) hlen
      subst hXpre hpre
      simp only [fillXRow, hxi, Bool.false_eq_true, if_false, Option.bind_eq_bind,
        Option.some_bind, writeAt2_append]
      simp only [List.append_assoc, List.singleton_append, Bool.false_eq_true, if_false] at this
      rw [this, List.range_succ_eq_map]
      simp [Function.comp_def, pow_succ, mul_assoc, mul_comm]
    | true =>
      have hwi : w[nRow]? = some (w.getD nRow 0) := getElem?_getD_of_lt w nRow (hw rfl)
      have := ih (nCol + 1) (nVal * x.getD nRow 0) Xpre Xpost (pre ++ [nVal * w.getD nRow 0])
        rest' hXpre (by simp [hpre]) hlen
      subst hXpre hpre
      simp only [fillXRow, hxi, hwi, if_true, Option.bind_eq_bind,
        Option.some_bind, writeAt2_append]
      simp only [List.append_assoc, List.singleton_append, if_true] at this
      rw [this, List.range_succ_eq_map]
      simp [Function.comp_def, pow_succ, mul_assoc, mul_comm, mul_left_comm]

/-- Rows stored by the loop of lines 36-47. -/
theorem fillX_loop (useW : Bool) (x w : List K) (m : Nat) :
    ∀ (n nRow : Nat) (Xpre Xrest : List (List K)), Xpre.length = nRow → Xrest.length = n →
      (∀ row ∈ Xrest, row.length = m) →
      nRow + n ≤ x.length → (useW = true → nRow + n ≤ w.length) →
      fillX useW x w m n nRow (Xpre ++ Xrest)
        = some (Xpre ++ (List.range' nRow n).map (fun i => (List.range m).map
            (fun k => if useW then x.getD i 0 ^ k * w.getD i 0 else x.getD i 0 ^ k))) := by
  intro n
  induction n with
  | zero =>
    intro nRow Xpre Xrest _ hrest _ _ _
    have : Xrest = [] := List.length_eq_zero.mp hrest
    simp [fillX, this]
  | succ n ih =>
    intro nRow Xpre Xrest hpre hrest hrows hx hw
    obtain ⟨r, rest', rfl⟩ := List.exists_cons_of_length_eq_add_one hrest
    have hlen : rest'.length = n := by simpa using hrest
    have hr : r.length = m := hrows r (by simp)
    have hrow := fillXRow_loop useW x w nRow (by omega) (by intro h; have := hw h; omega)
      m 0 1 Xpre rest' [] r hpre rfl hr
    simp only [List.nil_append, one_mul] at hrow
    have := ih (nRow + 1) (Xpre ++ [(List.range m).map
        (fun k => if useW then x.getD nRow 0 ^ k * w.getD nRow 0 else x.getD nRow 0 ^ k)])
      rest' (by simp [hpre]) hlen (fun row h => hrows row (by simp [h])) (by omega)
      (by intro h; have := hw h; omega)
    simp only [fillX, hrow, Option.bind_eq_bind, Option.some_bind]
    simpa [List.range'_succ] using this

/-- Closed form of the target vector. -/
theorem assembleY_eq (x y w : List K) (hy : x.length ≤ y.length) :
    assembleY x y w = some (targetEntries w x y) := by
  have h := fillY_loop (useWeights w x) y w x.length 0 [] (newVector x.length) rfl
    (by simp [newVector]) (by omega)
    (by intro h; simp [useWeights] at h; omega)
  simpa [assembleY, targetEntries, List.range_eq_range'] using h

/-- Closed form of the design matrix. -/
theorem assembleX_eq (x : List K) (d : Nat) (w : List K) :
    assembleX x d w = some (designRows w x d) := by
  have h := fillX_loop (useWeights w x) x w (d + 1) x.length 0 [] (newMatrix x.length (d + 1))
    rfl (by simp [newMatrix]) (by intro row hrow; simp [newMatrix] at hrow; simp [hrow.2])
    (by omega) (by intro h; simp [useWeights] at h; omega)
  simpa [assembleX, designRows, List.range_eq_range'] using h

/-- Accumulator of the loop of lines 82-88 after its last iteration. -/
theorem polyvalInner_loop (cf : List K) (xVal : K) :
    ∀ (n j : Nat) (yVal xPowered : K), j + n ≤ cf.length →
      polyvalInner cf xVal n j yVal xPowered
        = some (yVal + ∑ k ∈ Finset.range n, cf.getD (j + k) 0 * (xPowered * xVal ^ k)) := by
  intro n
  induction n with
  | zero => intro j yVal xPowered _; simp [polyvalInner]
  | succ n ih =>
    intro j yVal xPowered hj
    have hc : cf[j]? = some (cf.getD j 0) := getElem?_getD_of_lt cf j (by omega)
    simp only [polyvalInner, hc, Option.bind_eq_bind, Option.some_bind]
    rw [ih (j + 1) _ _ (by omega), Finset.sum_range_succ']
    simp only [pow_zero, mul_one, add_zero, pow_succ]
    rw [add_assoc, add_comm (cf.getD j 0 * xPowered)]
    congr 3
    apply Finset.sum_congr rfl
    intro k _
    rw [show j + 1 + k = j + (k + 1) by omega]
    ring

/-- Value computed for one query point. -/
theorem polyvalInner_eq (cf : List K) (xVal : K) :
    polyvalInner cf xVal cf.length 0 0 1 = some (polyEval cf xVal) := by
  rw [polyvalInner_loop cf xVal cf.length 0 0 1 (by omega)]
  simp [polyEval]

/-- Entries stored by the loop of lines 77-90. -/
theorem polyvalOuter_loop (cf x : List K) :
    ∀ (n i : Nat) (pre rest : List K), pre.length = i → rest.length = n →
      i + n ≤ x.length →
      polyvalOuter cf x n i (pre ++ rest)
        = some (pre ++ (List.range' i n).map (fun k => polyEval cf (x.getD k 0))) := by
  intro n
  induction n with
  | zero =>
    intro i pre rest _ hrest _
    have : rest = [] := List.length_eq_zero.mp hrest
    simp [polyvalOuter, this]
  | succ n ih =>
    intro i pre rest hpre hrest hx
    obtain ⟨r, rest', rfl⟩ := List.exists_cons_of_length_eq_add_one hrest
    have hxi : x[i]? = some (x.getD i 0) := getElem?_getD_of_lt x i (by omega)
    have hlen : rest'.length = n := by simpa using hrest
    have := ih (i + 1) (pre ++ [polyEval cf (x.getD i 0)]) rest' (by simp [hpre]) hlen (by omega)
    subst hpre
    simp only [polyvalOuter, hxi, polyvalInner_eq, Option.bind_eq_bind, Option.some_bind,
      writeAt_append]
    simpa [List.range'_succ] using this

theorem map_getD_range {β : Type} (x : List K) (f : K → β) :
    (List.range x.length).map (fun i => f (x.getD i 0)) = x.map f := by
  apply List.ext_getElem
  · simp
  · intro i h1 h2
    simp at h1
    simp [List.getD_eq_getElem?_getD, List.getElem?_eq_getElem h1]

/-- Closed form of `polyval`. -/
theorem polyval_eq (cf x : List K) : polyval cf x = some (x.map (polyEval cf)) := by
  have h := polyvalOuter_loop cf x x.length 0 [] (List.replicate x.length 0) rfl (by simp)
    (by omega)
  rw [← map_getD_range x (polyEval cf)]
  simpa [polyval, List.range_eq_range'] using h

/-! ## Polynomials and residuals -/

/-- Two coefficient lists of the same length that agree, as polynomial
functions, on at least that many distinct points are equal. -/
theorem polyEval_inj (a b : List K) (hlen : a.length = b.length) (s : Finset K)
    (hs : a.length ≤ s.card) (h : ∀ v ∈ s, polyEval a v = polyEval b v) : a = b := by
  classical
  have key : ∀ l : List K, ∃ p : Polynomial K,
      (∀ v, p.eval v = polyEval l v) ∧ (∀ j, p.coeff j = l.getD j 0) := by
    intro l
    refine ⟨∑ j ∈ Finset.range l.length, Polynomial.C (l.getD j 0) * Polynomial.X ^ j, ?_, ?_⟩
    · intro v
      simp [polyEval, Polynomial.eval_finset_sum]
    · intro j
      simp only [Polynomial.finset_sum_coeff, Polynomial.coeff_C_mul_X_pow]
      rw [Finset.sum_ite_eq]
      split
      · rfl
      · rename_i hj
        simp only [Finset.mem_range, not_lt] at hj
        simp [List.getD_eq_getElem?_getD, List.getElem?_eq_none hj]
  obtain ⟨p, hpe, hpc⟩ := key a
  obtain ⟨q, hqe, hqc⟩ := key b
  have hdeg : ∀ (l : List K) (r : Polynomial K), (∀ j, r.coeff j = l.getD j 0) →
      l.length ≤ s.card → r.degree < s.card := by
    intro l r hr hl
    rw [Polynomial.degree_lt_iff_coeff_zero]
    intro m hm
    rw [hr m]
    simp [List.getD_eq_getElem?_getD, List.getElem?_eq_none (le_trans hl hm)]
  have hpq : p = q := Polynomial.eq_of_degrees_lt_of_eval_finset_eq s (hdeg a p hpc hs)
    (hdeg b q hqc (hlen ▸ hs)) (fun v hv => by rw [hpe, hqe]; exact h v hv)
  apply List.ext_getElem hlen
  intro i h1 h2
  have := hpc i
  rw [hpq, hqc i] at this
  simpa [List.getD_eq_getElem?_getD, List.getElem?_eq_getElem h1, List.getElem?_eq_getElem h2]
    using this.symm

theorem dot_range_map (cf : List K) : ∀ a : Nat → K,
    dot ((List.range cf.length).map a) cf = ∑ k ∈ Finset.range cf.length, a k * cf.getD k 0 := by
  induction cf with
  | nil => intro a; simp [dot]
  | cons b bs ih =>
    intro a
    rw [List.length_cons, List.range_succ_eq_map, Finset.sum_range_succ']
    simp only [List.map_cons, List.map_map, dot]
    rw [ih]
    simp [add_comm]

theorem residualSq_range_map (cf : List K) (f : Nat → List K) (g : Nat → K) :
    ∀ n s : Nat, residualSq ((List.range' s n).map f) ((List.range' s n).map g) cf
      = ∑ i ∈ Finset.range n, (dot (f (s + i)) cf - g (s + i)) ^ 2 := by
  intro n
  induction n with
  | zero => intro s; simp [residualSq]
  | succ n ih =>
    intro s
    rw [List.range'_succ, Finset.sum_range_succ']
    simp only [List.map_cons, residualSq]
    rw [ih, add_comm]
    simp [add_assoc, add_comm 1]

theorem residualSq_range (cf : List K) (f : Nat → List K) (g : Nat → K) (n : Nat) :
    residualSq ((List.range n).map f) ((List.range n).map g) cf
      = ∑ i ∈ Finset.range n, (dot (f i) cf - g i) ^ 2 := by
  have h := residualSq_range_map cf f g n 0
  simpa [List.range_eq_range'] using h

theorem residualSq_nonneg (X : List (List K)) : ∀ (Y cf : List K), 0 ≤ residualSq X Y cf := by
  induction X with
  | nil => intro Y cf; simp [residualSq]
  | cons r X ih =>
    intro Y cf
    cases Y with
    | nil => simp [residualSq]
    | cons y Y =>
      simp only [residualSq]
      have := ih Y cf
      positivity

/-- Closed form of the assembled system. -/
theorem assemble_eq (x y : List K) (d : Nat) (w : List K) (hy : x.length ≤ y.length) :
    assemble x y d w = some (designRows w x d, targetEntries w x y) := by
  simp only [assemble, assembleY_eq x y w hy, assembleX_eq x d w, Option.bind_eq_bind,
    Option.some_bind, Option.pure_def]

theorem getD_map_of_lt (x : List K) (f : K → K) (i : Nat) (h : i < x.length) :
    (x.map f).getD i 0 = f (x.getD i 0) := by
  simp [List.getD_eq_getElem?_getD, List.getElem?_eq_getElem h]

/-- Residual norm of the assembled system as a weighted sum of squared
polynomial residuals. -/
theorem residualSq_assembled (x y : List K) (d : Nat) (w cf : List K) (hcf : cf.length = d + 1) :
    residualSq (designRows w x d) (targetEntries w x y) cf
      = weightedSumSq w x y (x.map (polyEval cf)) := by
  rw [designRows, targetEntries, residualSq_range, weightedSumSq]
  apply Finset.sum_congr rfl
  intro i hi
  rw [Finset.mem_range] at hi
  rw [getD_map_of_lt x _ i hi, ← hcf, dot_range_map, weightAt, polyEval]
  cases useWeights w x with
  | false =>
    simp only [Bool.false_eq_true, if_false, one_pow, one_mul]
    rw [show ∑ k ∈ Finset.range cf.length, x.getD i 0 ^ k * cf.getD k 0
      = ∑ j ∈ Finset.range cf.length, cf.getD j 0 * x.getD i 0 ^ j from
        Finset.sum_congr rfl (fun k _ => mul_comm _ _)]
    ring
  | true =>
    simp only [if_true]
    rw [show ∑ k ∈ Finset.range cf.length, x.getD i 0 ^ k * w.getD i 0 * cf.getD k 0
      = w.getD i 0 * ∑ j ∈ Finset.range cf.length, cf.getD j 0 * x.getD i 0 ^ j from by
        rw [Finset.mul_sum]; exact Finset.sum_congr rfl (fun k _ => by ring)]
    ring

theorem useWeights_iff {α : Type} (w x : List α) :
    useWeights w x = true ↔ (w ≠ [] ∧ w.length = x.length) := by
  simp [useWeights, List.length_pos]

theorem fillY_unweighted (y w w' : List K) :
    ∀ (n i : Nat) (Y : List K), fillY false y w n i Y = fillY false y w' n i Y := by
  intro n
  induction n with
  | zero => intro i Y; simp [fillY]
  | succ n ih => intro i Y; simp [fillY, ih]

theorem fillXRow_unweighted (x w w' : List K) (nRow : Nat) :
    ∀ (n nCol : Nat) (nVal : K) (X : List (List K)),
      fillXRow false x w nRow n nCol nVal X = fillXRow false x w' nRow n nCol nVal X := by
  intro n
  induction n with
  | zero => intro nCol nVal X; simp [fillXRow]
  | succ n ih => intro nCol nVal X; simp [fillXRow, ih]

theorem fillX_unweighted (x w w' : List K) (m : Nat) :
    ∀ (n nRow : Nat) (X : List (List K)),
      fillX false x w m n nRow X = fillX false x w' m n nRow X := by
  intro n
  induction n with
  | zero => intro nRow X; simp [fillX]
  | succ n ih => intro nRow X; simp [fillX, ih, fillXRow_unweighted x w w']

theorem useWeights_inactive {α : Type} (w x : List α) (h : w = [] ∨ w.length ≠ x.length) :
    useWeights w x = false := by
  rcases h with h | h
  · simp [useWeights, h]
  · simp [useWeights, h]

theorem useWeights_nil {α : Type} (x : List α) : useWeights ([] : List α) x = false := by
  simp [useWeights]

/-- C3 (design matrix, amended): in exact arithmetic, the matrix `X` assembled
by `polyfit_Eigen` has `len(xValues)` rows of `degree + 1` columns each, and its
entry in row `i`, column `j` is `xValues[i]^j` when weighting is inactive and
`xValues[i]^j * weights[i]` when weighting is active. -/
theorem C3_design_matrix (xValues : List K) (degree : Nat) (weights : List K) :
    ∃ X : List (List K), assembleX xValues degree weights = some X ∧
      X.length = xValues.length ∧ (∀ row ∈ X, row.length = degree + 1) ∧
      ∀ (i : Nat) (hi : i < xValues.length) (j : Nat), j ≤ degree →
        (useWeights weights xValues = false → entry X i j = some (xValues[i] ^ j)) ∧
        (useWeights weights xValues = true →
          ∃ wi, weights[i]? = some wi ∧ entry X i j = some (xValues[i] ^ j * wi)) := by
  refine ⟨_, assembleX_eq xValues degree weights, by simp [designRows], ?_, ?_⟩
  · intro row hrow
    simp only [designRows, List.mem_map, List.mem_range] at hrow
    obtain ⟨i, _, rfl⟩ := hrow
    simp
  · intro i hi j hj
    have hx : xValues.getD i 0 = xValues[i] := by
      simp [List.getD_eq_getElem?_getD, List.getElem?_eq_getElem hi]
    have hj' : j < degree + 1 := by omega
    constructor
    · intro hu
      simp [designRows, entry, hu, hi, hj', hx, List.getElem?_eq_getElem]
    · intro hu
      have hw : i < weights.length := by
        have := (useWeights_iff weights xValues).mp hu
        omega
      refine ⟨weights[i], List.getElem?_eq_getElem hw, ?_⟩
      simp [designRows, entry, hu, hi, hj', List.getElem?_eq_getElem hw,
        List.getElem?_eq_getElem]

/-- C4 (target vector, amended): in exact arithmetic, for `xValues` and
`yValues` of equal length, the vector `Y` assembled by `polyfit_Eigen` has
`len(xValues)` entries, and its entry `i` is `yValues[i]` when weighting is
inactive and `yValues[i] * weights[i]` when weighting is active. -/
theorem C4_target_vector (xValues yValues weights : List K)
    (hlen : yValues.length = xValues.length) :
    ∃ Y : List K, assembleY xValues yValues weights = some Y ∧
      Y.length = xValues.length ∧
      ∀ (i : Nat) (hi : i < yValues.length),
        (useWeights weights xValues = false → Y[i]? = some yValues[i]) ∧
        (useWeights weights xValues = true →
          ∃ wi, weights[i]? = some wi ∧ Y[i]? = some (yValues[i] * wi)) := by
  refine ⟨_, assembleY_eq xValues yValues weights (by omega), by simp [targetEntries], ?_⟩
  intro i hi
  have hi' : i < xValues.length := by omega
  constructor
  · intro hu
    simp [targetEntries, hu, hi', List.getElem?_eq_getElem hi, List.getElem?_eq_getElem]
  · intro hu
    have hw : i < weights.length := by
      have := (useWeights_iff weights xValues).mp hu
      omega
    refine ⟨weights[i], List.getElem?_eq_getElem hw, ?_⟩
    simp [targetEntries, hu, hi', List.getElem?_eq_getElem hi, List.getElem?_eq_getElem hw,
      List.getElem?_eq_getElem]

/-- Witness of C4: a weighted call on two samples. -/
theorem C4_target_vector_witness :
    ([3, 4] : List ℚ).length = ([0, 1] : List ℚ).length ∧
    ∃ Y : List ℚ, assembleY [0, 1] [3, 4] [2, 5] = some Y ∧
      Y.length = ([0, 1] : List ℚ).length ∧
      ∀ (i : Nat) (hi : i < ([3, 4] : List ℚ).length),
        (useWeights ([2, 5] : List ℚ) [0, 1] = false → Y[i]? = some ([3, 4] : List ℚ)[i]) ∧
        (useWeights ([2, 5] : List ℚ) [0, 1] = true →
          ∃ wi, ([2, 5] : List ℚ)[i]? = some wi ∧ Y[i]? = some (([3, 4] : List ℚ)[i] * wi)) :=
  ⟨rfl, C4_target_vector [0, 1] [3, 4] [2, 5] rfl⟩

theorem assembleY_inactive (x y w : List K) (h : useWeights w x = false) :
    assembleY x y w = assembleY x y [] := by
  simp only [assembleY, h, useWeights_nil]
  exact fillY_unweighted y w [] _ _ _

theorem assembleX_inactive (x : List K) (d : Nat) (w : List K) (h : useWeights w x = false) :
    assembleX x d w = assembleX x d [] := by
  simp only [assembleX, h, useWeights_nil]
  exact fillX_unweighted x w [] _ _ _ _

/-- C5 (silent weight fallback): weighting is active exactly when `weights` is
non-empty and as long as `xValues`; with a `weights` that is empty or of another
length, the call assembles the same `X` and `Y` and returns the same result as
the call with no weights, and the assembly succeeds whenever `yValues` is as
long as `xValues`. -/
theorem C5_silent_weight_fallback (S : DenseSolver K) (xValues yValues : List K)
    (degree : Nat) (weights : List K) (useJacobi : Bool) :
    (useWeights weights xValues = true ↔
      (weights ≠ [] ∧ weights.length = xValues.length)) ∧
    ((weights = [] ∨ weights.length ≠ xValues.length) →
      assembleX xValues degree weights = assembleX xValues degree [] ∧
      assembleY xValues yValues weights = assembleY xValues yValues [] ∧
      assemble xValues yValues degree weights = assemble xValues yValues degree [] ∧
      polyfit_Eigen S xValues yValues degree weights useJacobi
        = polyfit_Eigen S xValues yValues degree [] useJacobi ∧
      (yValues.length = xValues.length →
        (assemble xValues yValues degree weights).isSome = true)) := by
  refine ⟨useWeights_iff weights xValues, fun h => ?_⟩
  have hu := useWeights_inactive weights xValues h
  have hX := assembleX_inactive xValues degree weights hu
  have hY := assembleY_inactive xValues yValues weights hu
  have hA : assemble xValues yValues degree weights = assemble xValues yValues degree [] := by
    simp only [assemble, hX, hY]
  refine ⟨hX, hY, hA, ?_, ?_⟩
  · simp only [polyfit_Eigen, hA]
  · intro hlen
    rw [assemble_eq xValues yValues degree weights (by omega)]
    rfl

/-- Witness of C5: three weights for two samples are ignored. -/
theorem C5_silent_weight_fallback_witness :
    (([1, 2, 3] : List ℚ) = [] ∨ ([1, 2, 3] : List ℚ).length ≠ ([0, 1] : List ℚ).length) ∧
    polyfit_Eigen ⟨fun _ _ => [5, 1], fun _ _ => [5, 1]⟩ ([0, 1] : List ℚ) [5, 6] 1 [1, 2, 3] true
      = polyfit_Eigen ⟨fun _ _ => [5, 1], fun _ _ => [5, 1]⟩ ([0, 1] : List ℚ) [5, 6] 1 [] true :=
  ⟨Or.inr (by decide),
    ((C5_silent_weight_fallback ⟨fun _ _ => [5, 1], fun _ _ => [5, 1]⟩ ([0, 1] : List ℚ) [5, 6] 1
      [1, 2, 3] true).2 (Or.inr (by decide))).2.2.2.1⟩

/-- C6 (evaluator): `polyval` returns a sequence as long as `xValues` whose
entry `i` is `∑_{j < len(coefficients)} coefficients[j] * xValues[i]^j`. -/
theorem C6_evaluator_definition (coefficients xValues : List K) :
    ∃ yValues : List K, polyval coefficients xValues = some yValues ∧
      yValues.length = xValues.length ∧
      ∀ (i : Nat) (hi : i < xValues.length),
        yValues[i]? = some (∑ j ∈ Finset.range coefficients.length,
          coefficients.getD j 0 * xValues[i] ^ j) := by
  refine ⟨_, polyval_eq coefficients xValues, by simp, ?_⟩
  intro i hi
  simp [List.getElem?_eq_getElem, hi, polyEval]

theorem firstEntries_of_le {α : Type} (sol : List α) (n : Nat) (h : n ≤ sol.length) :
    firstEntries sol n = some (sol.take n) := by
  simp [firstEntries, h]

/-- C8 (result length, no rejection): for `xValues` and `yValues` of equal
length, any weights and either method, when the solver's solution vector has at
least `degree + 1` entries (Eigen returns one entry per column of `X`), the call
returns a sequence of exactly `degree + 1` entries, entry `j` being entry `j` of
the solution vector; no relation between the number of samples and the degree
is required. -/
theorem C8_result_length (S : DenseSolver K) (xValues yValues : List K) (degree : Nat)
    (weights : List K) (useJacobi : Bool) (hlen : yValues.length = xValues.length)
    (hsol : ∀ X Y, assemble xValues yValues degree weights = some (X, Y) →
      degree + 1 ≤ (S.solve useJacobi X Y).length) :
    ∃ (X : List (List K)) (Y r : List K),
      assemble xValues yValues degree weights = some (X, Y) ∧
      polyfit_Eigen S xValues yValues degree weights useJacobi = some r ∧
      r.length = degree + 1 ∧
      ∀ j : Nat, j ≤ degree → r[j]? = (S.solve useJacobi X Y)[j]? := by
  obtain ⟨X, Y, hA⟩ : ∃ X Y, assemble xValues yValues degree weights = some (X, Y) :=
    ⟨_, _, assemble_eq xValues yValues degree weights (by omega)⟩
  have hs := hsol X Y hA
  refine ⟨X, Y, (S.solve useJacobi X Y).take (degree + 1), hA, ?_, ?_, ?_⟩
  · simp only [polyfit_Eigen, hA, Option.bind_eq_bind, Option.some_bind]
    exact firstEntries_of_le _ _ hs
  · simp [List.length_take, hs]
  · intro j hj
    rw [List.getElem?_take_of_lt (by omega)]

/-- Witness of C8: an underdetermined call, one sample and degree two. -/
theorem C8_result_length_witness :
    ∃ (X : List (List ℚ)) (Y r : List ℚ),
      assemble [2] [7] 2 [] = some (X, Y) ∧
      polyfit_Eigen ⟨fun _ _ => [7, 0, 0], fun _ _ => [7, 0, 0]⟩ [2] [7] 2 [] false = some r ∧
      r.length = 2 + 1 ∧
      ∀ j : Nat, j ≤ 2 → r[j]? =
        (DenseSolver.solve ⟨fun _ _ => [7, 0, 0], fun _ _ => [7, 0, 0]⟩ false X Y)[j]? :=
  C8_result_length ⟨fun _ _ => [7, 0, 0], fun _ _ => [7, 0, 0]⟩ [2] [7] 2 [] false rfl
    (fun _ _ _ => by simp [DenseSolver.solve])

/-- C2 (weighted least-squares semantics): for `yValues` as long as `xValues`,
the squared residual norm of the assembled system at any coefficient vector of
`degree + 1` entries is `∑_i weights[i]² * (yValues[i] − polyval(c, xValues)[i])²`
(weight read as `1` when weighting is inactive), so that a least-squares
solution of the assembled system minimises this weighted sum among all
coefficient vectors of `degree + 1` entries. -/
theorem C2_weighted_least_squares (xValues yValues : List K) (degree : Nat) (weights : List K)
    (hlen : yValues.length = xValues.length) :
    ∃ (X : List (List K)) (Y : List K),
      assemble xValues yValues degree weights = some (X, Y) ∧
      (∀ cf : List K, cf.length = degree + 1 →
        ∃ p, polyval cf xValues = some p ∧
          residualSq X Y cf = weightedSumSq weights xValues yValues p) ∧
      (∀ cstar : List K, IsLeastSquares X Y (degree + 1) cstar →
        ∃ pstar, polyval cstar xValues = some pstar ∧
          ∀ cf : List K, cf.length = degree + 1 →
            ∃ p, polyval cf xValues = some p ∧
              weightedSumSq weights xValues yValues pstar
                ≤ weightedSumSq weights xValues yValues p) := by
  refine ⟨_, _, assemble_eq xValues yValues degree weights (by omega), ?_, ?_⟩
  · intro cf hcf
    exact ⟨_, polyval_eq cf xValues, residualSq_assembled xValues yValues degree weights cf hcf⟩
  · intro cstar hstar
    refine ⟨_, polyval_eq cstar xValues, ?_⟩
    intro cf hcf
    refine ⟨_, polyval_eq cf xValues, ?_⟩
    rw [← residualSq_assembled xValues yValues degree weights cstar hstar.1,
      ← residualSq_assembled xValues yValues degree weights cf hcf]
    exact hstar.2 cf hcf

/-- Witness of C2: two weighted samples and a line. -/
theorem C2_weighted_least_squares_witness :
    ∃ (X : List (List ℚ)) (Y : List ℚ),
      assemble [0, 1] [3, 4] 1 [2, 5] = some (X, Y) ∧
      (∀ cf : List ℚ, cf.length = 1 + 1 →
        ∃ p, polyval cf [0, 1] = some p ∧
          residualSq X Y cf = weightedSumSq [2, 5] [0, 1] [3, 4] p) ∧
      (∀ cstar : List ℚ, IsLeastSquares X Y (1 + 1) cstar →
        ∃ pstar, polyval cstar [0, 1] = some pstar ∧
          ∀ cf : List ℚ, cf.length = 1 + 1 →
            ∃ p, polyval cf [0, 1] = some p ∧
              weightedSumSq [2, 5] [0, 1] [3, 4] pstar
                ≤ weightedSumSq [2, 5] [0, 1] [3, 4] p) :=
  C2_weighted_least_squares [0, 1] [3, 4] 1 [2, 5] rfl

theorem weightAt_inactive (w x : List K) (h : useWeights w x = false) (i : Nat) :
    weightAt w x i = 1 := by
  simp [weightAt, h]

/-- An unweighted least-squares solution of data generated by a polynomial of
`d + 1` coefficients at `d + 1` or more distinct points is that polynomial. -/
theorem exact_fit_unique (x y : List K) (d : Nat) (w cf cs : List K)
    (hu : useWeights w x = false) (hcf : cf.length = d + 1)
    (hdist : d + 1 ≤ x.toFinset.card)
    (hgen : ∀ i, i < x.length → y.getD i 0 = polyEval cf (x.getD i 0))
    (hcs : cs.length = d + 1)
    (hmin : weightedSumSq w x y (x.map (polyEval cs)) ≤ weightedSumSq w x y (x.map (polyEval cf))) :
    cs = cf := by
  have hzero : weightedSumSq w x y (x.map (polyEval cf)) = 0 := by
    rw [weightedSumSq]
    apply Finset.sum_eq_zero
    intro i hi
    rw [Finset.mem_range] at hi
    rw [getD_map_of_lt x _ i hi, hgen i hi]
    ring
  rw [hzero, weightedSumSq] at hmin
  have hterm : ∀ i ∈ Finset.range x.length,
      0 ≤ weightAt w x i ^ 2 * (y.getD i 0 - (x.map (polyEval cs)).getD i 0) ^ 2 :=
    fun i _ => by positivity
  have hall := (Finset.sum_eq_zero_iff_of_nonneg hterm).mp
    (le_antisymm hmin (Finset.sum_nonneg hterm))
  apply polyEval_inj cs cf (by omega) x.toFinset (by omega)
  intro v hv
  rw [List.mem_toFinset] at hv
  obtain ⟨i, hi, rfl⟩ := List.getElem_of_mem hv
  have h := hall i (Finset.mem_range.mpr hi)
  rw [weightAt_inactive w x hu, getD_map_of_lt x _ i hi, hgen i hi] at h
  have hxi : x.getD i 0 = x[i] := by
    simp [List.getD_eq_getElem?_getD, List.getElem?_eq_getElem hi]
  rw [hxi] at h
  have h2 : polyEval cf x[i] - polyEval cs x[i] = 0 := by
    simpa using h
  exact (sub_eq_zero.mp h2).symm

theorem getD_eq_getElem_of_lt (v : List K) (i : Nat) (h : i < v.length) : v.getD i 0 = v[i] := by
  simp [List.getD_eq_getElem?_getD, List.getElem?_eq_getElem h]

/-- The unweighted call on exactly generated data returns the generating
coefficients. -/
theorem polyfit_exact (S : DenseSolver K) (d : Nat) (cf x y w : List K) (useJacobi : Bool)
    (hu : useWeights w x = false)
    (hcf : cf.length = d + 1) (hdist : d + 1 ≤ x.toFinset.card)
    (hlen : y.length = x.length)
    (hgen : ∀ (i : Nat) (hx : i < x.length) (hy : i < y.length),
      y[i] = ∑ j ∈ Finset.range (d + 1), cf.getD j 0 * x[i] ^ j)
    (hsol : ∀ X Y, assemble x y d w = some (X, Y) →
      IsLeastSquares X Y (d + 1) (S.solve useJacobi X Y)) :
    polyfit_Eigen S x y d w useJacobi = some cf := by
  have hA := assemble_eq x y d w (by omega)
  have hls := hsol _ _ hA
  have hgen' : ∀ i, i < x.length → y.getD i 0 = polyEval cf (x.getD i 0) := by
    intro i hi
    rw [getD_eq_getElem_of_lt y i (by omega), getD_eq_getElem_of_lt x i hi, polyEval, hcf]
    exact hgen i hi (by omega)
  have hmin := hls.2 cf hcf
  rw [residualSq_assembled x y d w _ hls.1, residualSq_assembled x y d w cf hcf] at hmin
  have hcs := exact_fit_unique x y d w cf _ hu hcf hdist hgen' hls.1 hmin
  simp only [polyfit_Eigen, hA, Option.bind_eq_bind, Option.some_bind]
  rw [hcs, firstEntries_of_le cf (d + 1) (by omega), ← hcf, List.take_length]

/-- C1 (exact fit recovery): when `yValues[i] = ∑_{j ≤ degree} c[j] * xValues[i]^j`
for every `i`, `c` has `degree + 1` entries, `xValues` holds at least
`degree + 1` distinct values and the chosen solver returns a least-squares
solution of the assembled system, the unweighted call returns exactly `c`, for
either method. -/
theorem C1_exact_fit_recovery (S : DenseSolver K) (degree : Nat) (cf xValues yValues : List K)
    (useJacobi : Bool) (hcf : cf.length = degree + 1)
    (hdist : degree + 1 ≤ xValues.toFinset.card)
    (hlen : yValues.length = xValues.length)
    (hgen : ∀ (i : Nat) (hx : i < xValues.length) (hy : i < yValues.length),
      yValues[i] = ∑ j ∈ Finset.range (degree + 1), cf.getD j 0 * xValues[i] ^ j)
    (hsol : ∀ X Y, assemble xValues yValues degree [] = some (X, Y) →
      IsLeastSquares X Y (degree + 1) (S.solve useJacobi X Y)) :
    polyfit_Eigen S xValues yValues degree [] useJacobi = some cf :=
  polyfit_exact S degree cf xValues yValues [] useJacobi (useWeights_nil xValues) hcf hdist hlen
    hgen hsol

/-- A vector with zero residual is a least-squares solution. -/
theorem isLeastSquares_of_residual_zero (X : List (List K)) (Y cs : List K) (m : Nat)
    (hlen : cs.length = m) (h : residualSq X Y cs = 0) : IsLeastSquares X Y m cs :=
  ⟨hlen, fun c' _ => h ▸ residualSq_nonneg X Y c'⟩

/-- Witness of C1: `x = [0,1,2,3,4]`, `y = 2 + 3x`, degree one gives `[2, 3]`. -/
theorem C1_exact_fit_recovery_witness :
    polyfit_Eigen ⟨fun _ _ => [2, 3], fun _ _ => [0, 0]⟩ ([0, 1, 2, 3, 4] : List ℚ)
      [2, 5, 8, 11, 14] 1 [] true = some [2, 3] :=
  C1_exact_fit_recovery ⟨fun _ _ => [2, 3], fun _ _ => [0, 0]⟩ 1 [2, 3] [0, 1, 2, 3, 4]
    [2, 5, 8, 11, 14] true rfl (by decide) rfl
    (by
      intro i hx hy
      simp only [List.length_cons, List.length_nil] at hx
      interval_cases i <;> simp [Finset.sum_range_succ] <;> norm_num)
    (by
      intro X Y hA
      simp [assemble, assembleY, assembleX, fillY, fillX, fillXRow, useWeights, newVector,
        newMatrix, writeAt, writeAt2] at hA
      obtain ⟨rfl, rfl⟩ := hA
      apply isLeastSquares_of_residual_zero _ _ _ _ rfl
      simp [DenseSolver.solve, residualSq, dot]
      norm_num)

/-- C7 (evaluation round-trip): when `yValues` is generated exactly by a
polynomial of `degree + 1` coefficients at `xValues`, which holds at least
`degree + 1` distinct values, and the chosen solver returns a least-squares
solution of the assembled system, evaluating the fitted coefficients at
`xValues` with `polyval` gives back `yValues`. -/
theorem C7_evaluation_round_trip (S : DenseSolver K) (degree : Nat) (xValues yValues : List K)
    (useJacobi : Bool) (hdist : degree + 1 ≤ xValues.toFinset.card)
    (hlen : yValues.length = xValues.length)
    (hgen : ∃ cf : List K, cf.length = degree + 1 ∧
      ∀ (i : Nat) (hx : i < xValues.length) (hy : i < yValues.length),
        yValues[i] = ∑ j ∈ Finset.range (degree + 1), cf.getD j 0 * xValues[i] ^ j)
    (hsol : ∀ X Y, assemble xValues yValues degree [] = some (X, Y) →
      IsLeastSquares X Y (degree + 1) (S.solve useJacobi X Y)) :
    ∃ r : List K, polyfit_Eigen S xValues yValues degree [] useJacobi = some r ∧
      polyval r xValues = some yValues := by
  obtain ⟨cf, hcf, hg⟩ := hgen
  refine ⟨cf, polyfit_exact S degree cf xValues yValues [] useJacobi (useWeights_nil xValues)
    hcf hdist hlen hg hsol, ?_⟩
  rw [polyval_eq]
  congr 1
  apply List.ext_getElem (by simp [hlen])
  intro i h1 h2
  simp only [List.length_map] at h1
  simp only [List.getElem_map, polyEval, hcf]
  exact (hg i h1 h2).symm

/-- Witness of C7: the parabola `1 + x²` sampled at four points. -/
theorem C7_evaluation_round_trip_witness :
    ∃ r : List ℚ, polyfit_Eigen ⟨fun _ _ => [9, 9, 9], fun _ _ => [1, 0, 1]⟩
        [0, 1, 2, 3] [1, 2, 5, 10] 2 [] false = some r ∧
      polyval r [0, 1, 2, 3] = some [1, 2, 5, 10] :=
  C7_evaluation_round_trip ⟨fun _ _ => [9, 9, 9], fun _ _ => [1, 0, 1]⟩ 2 [0, 1, 2, 3]
    [1, 2, 5, 10] false (by decide) rfl
    ⟨[1, 0, 1], rfl, by
      intro i hx hy
      simp only [List.length_cons, List.length_nil] at hx
      interval_cases i <;> simp [Finset.sum_range_succ] <;> norm_num⟩
    (by
      intro X Y hA
      simp [assemble, assembleY, assembleX, fillY, fillX, fillXRow, useWeights, newVector,
        newMatrix, writeAt, writeAt2] at hA
      obtain ⟨rfl, rfl⟩ := hA
      apply isLeastSquares_of_residual_zero _ _ _ _ rfl
      simp [DenseSolver.solve, residualSq, dot]
      norm_num)

theorem polyEval_mid (c1 c2 : List K) (h : c1.length = c2.length) (v : K) :
    polyEval (List.zipWith (fun a b => (a + b) / 2) c1 c2) v
      = (polyEval c1 v + polyEval c2 v) / 2 := by
  simp only [polyEval, List.length_zipWith, ← h, min_self]
  rw [← Finset.sum_add_distrib, Finset.sum_div]
  apply Finset.sum_congr rfl
  intro j hj
  rw [Finset.mem_range] at hj
  have h1 : c1[j]? = some (c1.getD j 0) := getElem?_getD_of_lt c1 j hj
  have h2 : c2[j]? = some (c2.getD j 0) := getElem?_getD_of_lt c2 j (h ▸ hj)
  have h3 : (List.zipWith (fun a b => (a + b) / 2) c1 c2).getD j 0
      = (c1.getD j 0 + c2.getD j 0) / 2 := by
    rw [List.getD_eq_getElem?_getD, List.getElem?_zipWith, h1, h2]
    rfl
  rw [h3]
  ring

/-- Two minimisers of the weighted sum of squared residuals take the same value
at every sample of non-zero weight. -/
theorem minimisers_agree (w x y c1 c2 : List K) (m : Nat) (h1 : c1.length = m)
    (h2 : c2.length = m)
    (hmin1 : ∀ c' : List K, c'.length = m →
      weightedSumSq w x y (x.map (polyEval c1)) ≤ weightedSumSq w x y (x.map (polyEval c')))
    (hmin2 : ∀ c' : List K, c'.length = m →
      weightedSumSq w x y (x.map (polyEval c2)) ≤ weightedSumSq w x y (x.map (polyEval c')))
    (i : Nat) (hi : i < x.length) (hw : weightAt w x i ≠ 0) :
    polyEval c1 (x.getD i 0) = polyEval c2 (x.getD i 0) := by
  have hlen : c1.length = c2.length := by omega
  have hmidlen : (List.zipWith (fun a b => (a + b) / 2) c1 c2).length = m := by
    simp [List.length_zipWith, h1, h2]
  have hpar : weightedSumSq w x y (x.map (polyEval (List.zipWith (fun a b => (a + b) / 2) c1 c2)))
      + ∑ i ∈ Finset.range x.length,
          weightAt w x i ^ 2 * (polyEval c1 (x.getD i 0) - polyEval c2 (x.getD i 0)) ^ 2 / 4
      = (weightedSumSq w x y (x.map (polyEval c1))
          + weightedSumSq w x y (x.map (polyEval c2))) / 2 := by
    simp only [weightedSumSq]
    rw [← Finset.sum_add_distrib, ← Finset.sum_add_distrib, Finset.sum_div]
    apply Finset.sum_congr rfl
    intro j hj
    rw [Finset.mem_range] at hj
    rw [getD_map_of_lt x _ j hj, getD_map_of_lt x _ j hj, getD_map_of_lt x _ j hj,
      polyEval_mid c1 c2 hlen]
    ring
  have hterm : ∀ j ∈ Finset.range x.length,
      0 ≤ weightAt w x j ^ 2 * (polyEval c1 (x.getD j 0) - polyEval c2 (x.getD j 0)) ^ 2 / 4 :=
    fun j _ => by positivity
  have hle : ∑ i ∈ Finset.range x.length,
      weightAt w x i ^ 2 * (polyEval c1 (x.getD i 0) - polyEval c2 (x.getD i 0)) ^ 2 / 4 ≤ 0 := by
    have a1 := hmin1 _ hmidlen
    have a2 := hmin2 _ hmidlen
    linarith
  have hall := (Finset.sum_eq_zero_iff_of_nonneg hterm).mp
    (le_antisymm hle (Finset.sum_nonneg hterm))
  have h := hall i (Finset.mem_range.mpr hi)
  have h' : weightAt w x i ^ 2 * (polyEval c1 (x.getD i 0) - polyEval c2 (x.getD i 0)) ^ 2 = 0 := by
    linarith
  rcases mul_eq_zero.mp h' with h0 | h0
  · exact absurd (pow_eq_zero_iff (by norm_num) |>.mp h0) hw
  · exact sub_eq_zero.mp (pow_eq_zero_iff (by norm_num) |>.mp h0)

/-- With weighting inactive and at least `d + 1` distinct sample points, the
minimiser of the sum of squared residuals among vectors of `d + 1` entries is
unique. -/
theorem unweighted_minimiser_unique (w x y c1 c2 : List K) (d : Nat)
    (hu : useWeights w x = false) (hdist : d + 1 ≤ x.toFinset.card)
    (h1 : c1.length = d + 1) (h2 : c2.length = d + 1)
    (hmin1 : ∀ c' : List K, c'.length = d + 1 →
      weightedSumSq w x y (x.map (polyEval c1)) ≤ weightedSumSq w x y (x.map (polyEval c')))
    (hmin2 : ∀ c' : List K, c'.length = d + 1 →
      weightedSumSq w x y (x.map (polyEval c2)) ≤ weightedSumSq w x y (x.map (polyEval c'))) :
    c1 = c2 := by
  apply polyEval_inj c1 c2 (by omega) x.toFinset (by omega)
  intro v hv
  rw [List.mem_toFinset] at hv
  obtain ⟨i, hi, rfl⟩ := List.getElem_of_mem hv
  have h := minimisers_agree w x y c1 c2 (d + 1) h1 h2 hmin1 hmin2 i hi
    (by rw [weightAt_inactive w x hu]; exact one_ne_zero)
  rwa [getD_eq_getElem_of_lt x i hi] at h

theorem useWeights_of_length {α : Type} (w x : List α) (hw : w.length = x.length) (hN : 0 < x.length) :
    useWeights w x = true := by
  simp [useWeights, hw, hN]

theorem getD_const (w : List K) (k : K) (hall : ∀ v ∈ w, v = k) (i : Nat) (hi : i < w.length) :
    w.getD i 0 = k := by
  rw [getD_eq_getElem_of_lt w i hi]
  exact hall _ (List.getElem_mem hi)

theorem weightedSumSq_const (w x y p : List K) (k : K) (hw : w.length = x.length)
    (hN : 0 < x.length) (hall : ∀ v ∈ w, v = k) :
    weightedSumSq w x y p = k ^ 2 * weightedSumSq [] x y p := by
  simp only [weightedSumSq, Finset.mul_sum]
  apply Finset.sum_congr rfl
  intro i hi
  rw [Finset.mem_range] at hi
  rw [weightAt, weightAt, useWeights_of_length w x hw hN, useWeights_nil,
    getD_const w k hall i (by omega)]
  simp

/-- Least-squares solutions of the assembled system are the minimisers of the
weighted sum of squared residuals. -/
theorem isLeastSquares_assembled (x y : List K) (d : Nat) (w cs : List K) :
    IsLeastSquares (designRows w x d) (targetEntries w x y) (d + 1) cs ↔
      (cs.length = d + 1 ∧ ∀ c' : List K, c'.length = d + 1 →
        weightedSumSq w x y (x.map (polyEval cs)) ≤ weightedSumSq w x y (x.map (polyEval c'))) := by
  constructor
  · rintro ⟨h1, h2⟩
    refine ⟨h1, fun c' hc' => ?_⟩
    have := h2 c' hc'
    rwa [residualSq_assembled x y d w cs h1, residualSq_assembled x y d w c' hc'] at this
  · rintro ⟨h1, h2⟩
    refine ⟨h1, fun c' hc' => ?_⟩
    rw [residualSq_assembled x y d w cs h1, residualSq_assembled x y d w c' hc']
    exact h2 c' hc'

/-- C9 (equal weights equal no weights): with `weights` of the length of
`xValues`, all equal to a non-zero `k`, and at least `degree + 1` distinct
values in `xValues`, the weighted system is `k` times the unweighted one, both
have the same least-squares solutions, and, the solver returning a
least-squares solution of each, the weighted call returns the same coefficients
as the call with no weights. -/
theorem C9_equal_weights (S : DenseSolver K) (xValues yValues : List K) (degree : Nat)
    (weights : List K) (k : K) (useJacobi : Bool)
    (hdist : degree + 1 ≤ xValues.toFinset.card)
    (hlen : yValues.length = xValues.length) (hw : weights.length = xValues.length)
    (hk : k ≠ 0) (hall : ∀ v ∈ weights, v = k)
    (hsolu : ∀ X Y, assemble xValues yValues degree [] = some (X, Y) →
      IsLeastSquares X Y (degree + 1) (S.solve useJacobi X Y))
    (hsolw : ∀ X Y, assemble xValues yValues degree weights = some (X, Y) →
      IsLeastSquares X Y (degree + 1) (S.solve useJacobi X Y)) :
    ∃ (Xu : List (List K)) (Yu : List K) (Xw : List (List K)) (Yw r : List K),
      assemble xValues yValues degree [] = some (Xu, Yu) ∧
      assemble xValues yValues degree weights = some (Xw, Yw) ∧
      Xw = Xu.map (fun row => row.map (fun a => k * a)) ∧
      Yw = Yu.map (fun a => k * a) ∧
      (∀ cs : List K, IsLeastSquares Xw Yw (degree + 1) cs ↔
        IsLeastSquares Xu Yu (degree + 1) cs) ∧
      polyfit_Eigen S xValues yValues degree [] useJacobi = some r ∧
      polyfit_Eigen S xValues yValues degree weights useJacobi = some r := by
  have hN : 0 < xValues.length :=
    lt_of_lt_of_le (by omega) (le_trans hdist (List.toFinset_card_le xValues))
  have hAu := assemble_eq xValues yValues degree [] (by omega)
  have hAw := assemble_eq xValues yValues degree weights (by omega)
  have hUw := useWeights_of_length weights xValues hw hN
  have hk2 : 0 < k ^ 2 := by positivity
  have hres : ∀ cs : List K, cs.length = degree + 1 →
      weightedSumSq weights xValues yValues (xValues.map (polyEval cs))
        = k ^ 2 * weightedSumSq [] xValues yValues (xValues.map (polyEval cs)) :=
    fun cs _ => weightedSumSq_const weights xValues yValues _ k hw hN hall
  have hiff : ∀ cs : List K,
      (cs.length = degree + 1 ∧ ∀ c' : List K, c'.length = degree + 1 →
        weightedSumSq weights xValues yValues (xValues.map (polyEval cs))
          ≤ weightedSumSq weights xValues yValues (xValues.map (polyEval c'))) ↔
      (cs.length = degree + 1 ∧ ∀ c' : List K, c'.length = degree + 1 →
        weightedSumSq [] xValues yValues (xValues.map (polyEval cs))
          ≤ weightedSumSq [] xValues yValues (xValues.map (polyEval c'))) := by
    intro cs
    constructor
    · rintro ⟨h1, h2⟩
      refine ⟨h1, fun c' hc' => ?_⟩
      have := h2 c' hc'
      rw [hres cs h1, hres c' hc'] at this
      exact le_of_mul_le_mul_left this hk2
    · rintro ⟨h1, h2⟩
      refine ⟨h1, fun c' hc' => ?_⟩
      rw [hres cs h1, hres c' hc']
      exact mul_le_mul_of_nonneg_left (h2 c' hc') hk2.le
  have hls : ∀ (wts cs : List K), IsLeastSquares (designRows wts xValues degree)
        (targetEntries wts xValues yValues) (degree + 1) cs ↔
      (cs.length = degree + 1 ∧ ∀ c' : List K, c'.length = degree + 1 →
        weightedSumSq wts xValues yValues (xValues.map (polyEval cs))
          ≤ weightedSumSq wts xValues yValues (xValues.map (polyEval c'))) :=
    fun wts cs => isLeastSquares_assembled xValues yValues degree wts cs
  have hequiv : ∀ cs : List K,
      IsLeastSquares (designRows weights xValues degree)
        (targetEntries weights xValues yValues) (degree + 1) cs ↔
      IsLeastSquares (designRows [] xValues degree)
        (targetEntries [] xValues yValues) (degree + 1) cs :=
    fun cs => ((hls weights cs).trans (hiff cs)).trans (hls [] cs).symm
  have hLu := hsolu _ _ hAu
  have hLw := (hequiv _).mp (hsolw _ _ hAw)
  have hsame := unweighted_minimiser_unique [] xValues yValues _ _ degree
    (useWeights_nil xValues) hdist hLw.1 hLu.1 ((hls [] _).mp hLw).2 ((hls [] _).mp hLu).2
  refine ⟨_, _, _, _, (S.solve useJacobi (designRows [] xValues degree)
    (targetEntries [] xValues yValues)).take (degree + 1), hAu, hAw, ?_, ?_, hequiv, ?_, ?_⟩
  · simp only [designRows, hUw, useWeights_nil, if_true, Bool.false_eq_true, if_false, List.map_map]
    apply List.map_congr_left
    intro i hi
    rw [List.mem_range] at hi
    simp only [Function.comp_def, List.map_map]
    apply List.map_congr_left
    intro j _
    rw [getD_const weights k hall i (by omega), mul_comm]
  · simp only [targetEntries, hUw, useWeights_nil, if_true, Bool.false_eq_true, if_false,
      List.map_map]
    apply List.map_congr_left
    intro i hi
    rw [List.mem_range] at hi
    simp only [Function.comp_def]
    rw [getD_const weights k hall i (by omega), mul_comm]
  · simp only [polyfit_Eigen, hAu, Option.bind_eq_bind, Option.some_bind]
    exact firstEntries_of_le _ _ (by rw [hLu.1])
  · simp only [polyfit_Eigen, hAw, Option.bind_eq_bind, Option.some_bind]
    rw [hsame]
    exact firstEntries_of_le _ _ (by rw [hLu.1])

/-- Witness of C9: three noisy samples, a line, all weights equal to two. -/
theorem C9_equal_weights_witness :
    ∃ (Xu : List (List ℚ)) (Yu : List ℚ) (Xw : List (List ℚ)) (Yw r : List ℚ),
      assemble [0, 1, 2] [0, 0, 3] 1 [] = some (Xu, Yu) ∧
      assemble [0, 1, 2] [0, 0, 3] 1 [2, 2, 2] = some (Xw, Yw) ∧
      Xw = Xu.map (fun row => row.map (fun a => 2 * a)) ∧
      Yw = Yu.map (fun a => 2 * a) ∧
      (∀ cs : List ℚ, IsLeastSquares Xw Yw (1 + 1) cs ↔ IsLeastSquares Xu Yu (1 + 1) cs) ∧
      polyfit_Eigen ⟨fun _ _ => [-1 / 2, 3 / 2], fun _ _ => []⟩ [0, 1, 2] [0, 0, 3] 1 [] true
        = some r ∧
      polyfit_Eigen ⟨fun _ _ => [-1 / 2, 3 / 2], fun _ _ => []⟩ [0, 1, 2] [0, 0, 3] 1 [2, 2, 2]
        true = some r :=
  C9_equal_weights ⟨fun _ _ => [-1 / 2, 3 / 2], fun _ _ => []⟩ [0, 1, 2] [0, 0, 3] 1 [2, 2, 2] 2
    true (by decide) rfl rfl (by norm_num) (by simp)
    (by
      intro X Y hA
      simp [assemble, assembleY, assembleX, fillY, fillX, fillXRow, useWeights, newVector,
        newMatrix, writeAt, writeAt2] at hA
      obtain ⟨rfl, rfl⟩ := hA
      refine ⟨rfl, fun c' hc' => ?_⟩
      obtain ⟨a, b, rfl⟩ := List.length_eq_two.mp hc'
      simp only [DenseSolver.solve, residualSq, dot, if_true]
      nlinarith [sq_nonneg (a + b - 1), sq_nonneg (b - 3 / 2)])
    (by
      intro X Y hA
      simp [assemble, assembleY, assembleX, fillY, fillX, fillXRow, useWeights, newVector,
        newMatrix, writeAt, writeAt2] at hA
      obtain ⟨rfl, rfl⟩ := hA
      refine ⟨rfl, fun c' hc' => ?_⟩
      obtain ⟨a, b, rfl⟩ := List.length_eq_two.mp hc'
      simp only [DenseSolver.solve, residualSq, dot, if_true]
      nlinarith [sq_nonneg (a + b - 1), sq_nonneg (b - 3 / 2)])

theorem sum_range_eq_list_sum (g : Nat → K) (n : Nat) :
    ∑ i ∈ Finset.range n, g i = ((List.range n).map g).sum := by
  induction n with
  | zero => simp
  | succ n ih => rw [Finset.sum_range_succ, ih, List.range_succ]; simp

theorem sum_range_getD (l : List K) (f : K → K) :
    ∑ i ∈ Finset.range l.length, f (l.getD i 0) = (l.map f).sum := by
  rw [sum_range_eq_list_sum, map_getD_range]

theorem sum_range_getD_zipWith (a b : List K) (f : K → K → K) (h : a.length = b.length) :
    ∑ i ∈ Finset.range a.length, f (a.getD i 0) (b.getD i 0) = (List.zipWith f a b).sum := by
  rw [sum_range_eq_list_sum]
  congr 1
  apply List.ext_getElem
  · simp [h]
  · intro i h1 h2
    simp only [List.length_map, List.length_range] at h1
    simp [List.getD_eq_getElem?_getD, List.getElem?_eq_getElem h1,
      List.getElem?_eq_getElem (h ▸ h1)]

theorem polyEval_singleton (a v : K) : polyEval [a] v = a := by
  simp [polyEval]

/-- The constant minimising a weighted sum of squared deviations is the
weighted mean. -/
theorem degree_zero_minimiser (w x y : List K) (a : K)
    (hA : 0 < ∑ i ∈ Finset.range x.length, weightAt w x i ^ 2)
    (hmin : ∀ c' : List K, c'.length = 1 →
      weightedSumSq w x y (x.map (polyEval [a])) ≤ weightedSumSq w x y (x.map (polyEval c'))) :
    a = (∑ i ∈ Finset.range x.length, weightAt w x i ^ 2 * y.getD i 0)
          / ∑ i ∈ Finset.range x.length, weightAt w x i ^ 2 := by
  have hquad : ∀ t : K, weightedSumSq w x y (x.map (polyEval [t]))
      = (∑ i ∈ Finset.range x.length, weightAt w x i ^ 2) * t ^ 2
        - 2 * (∑ i ∈ Finset.range x.length, weightAt w x i ^ 2 * y.getD i 0) * t
        + ∑ i ∈ Finset.range x.length, weightAt w x i ^ 2 * y.getD i 0 ^ 2 := by
    intro t
    rw [weightedSumSq, Finset.sum_mul, Finset.mul_sum, Finset.sum_mul, ← Finset.sum_sub_distrib,
      ← Finset.sum_add_distrib]
    apply Finset.sum_congr rfl
    intro i hi
    rw [Finset.mem_range] at hi
    rw [getD_map_of_lt x _ i hi, polyEval_singleton]
    ring
  set A := ∑ i ∈ Finset.range x.length, weightAt w x i ^ 2 with hAdef
  set B := ∑ i ∈ Finset.range x.length, weightAt w x i ^ 2 * y.getD i 0 with hBdef
  have hAb : A * (B / A) = B := by field_simp
  have h := hmin [B / A] rfl
  rw [hquad a, hquad (B / A)] at h
  have e : A * (a - B / A) ^ 2 = (A * a ^ 2 - 2 * B * a) - (A * (B / A) ^ 2 - 2 * B * (B / A)) := by
    have : A * (a - B / A) ^ 2 = A * a ^ 2 - 2 * (A * (B / A)) * a + (A * (B / A)) * (B / A) := by
      ring
    rw [this, hAb]
    have : A * (B / A) ^ 2 = (A * (B / A)) * (B / A) := by ring
    rw [this, hAb]
    ring
  have hle : A * (a - B / A) ^ 2 ≤ 0 := by rw [e]; linarith
  have hsq : (a - B / A) ^ 2 ≤ 0 := by
    by_contra hcon
    push_neg at hcon
    have := mul_pos hA hcon
    linarith
  have : a - B / A = 0 := by
    have h0 : (a - B / A) ^ 2 = 0 := le_antisymm hsq (sq_nonneg _)
    exact pow_eq_zero_iff (by norm_num) |>.mp h0
  linarith

theorem useWeights_congr {α : Type} (w x x' : List α) (h : x'.length = x.length) :
    useWeights w x' = useWeights w x := by
  simp [useWeights, h]

theorem designRows_degree_zero (w x x' : List K) (h : x'.length = x.length) :
    designRows w x' 0 = designRows w x 0 := by
  simp [designRows, h, useWeights_congr w x x' h]

theorem targetEntries_congr (w x x' y : List K) (h : x'.length = x.length) :
    targetEntries w x' y = targetEntries w x y := by
  simp [targetEntries, h, useWeights_congr w x x' h]

/-- C10 (degree-0 fit): for at least one sample, `yValues` as long as `xValues`
and a solver returning a least-squares solution of the assembled system, the
call of degree `0` returns the single coefficient `(∑ y_i) / N` when weighting
is inactive and `(∑ w_i² y_i) / (∑ w_i²)` when weighting is active and some
weight is non-zero; replacing `xValues` by any sequence of the same length
changes neither the assembled system nor the result. -/
theorem C10_degree_zero_fit (S : DenseSolver K) (xValues yValues weights : List K)
    (useJacobi : Bool) (hN : 1 ≤ xValues.length) (hlen : yValues.length = xValues.length)
    (hsol : ∀ X Y, assemble xValues yValues 0 weights = some (X, Y) →
      IsLeastSquares X Y (0 + 1) (S.solve useJacobi X Y)) :
    (useWeights weights xValues = false →
      polyfit_Eigen S xValues yValues 0 weights useJacobi
        = some [yValues.sum / (xValues.length : K)]) ∧
    (useWeights weights xValues = true → (∃ v ∈ weights, v ≠ 0) →
      polyfit_Eigen S xValues yValues 0 weights useJacobi
        = some [(List.zipWith (fun wi yi => wi ^ 2 * yi) weights yValues).sum
            / (weights.map (fun wi => wi ^ 2)).sum]) ∧
    (∀ xValues' : List K, xValues'.length = xValues.length →
      assemble xValues' yValues 0 weights = assemble xValues yValues 0 weights ∧
      polyfit_Eigen S xValues' yValues 0 weights useJacobi
        = polyfit_Eigen S xValues yValues 0 weights useJacobi) := by
  have hA := assemble_eq xValues yValues 0 weights (by omega)
  have hls := (isLeastSquares_assembled xValues yValues 0 weights _).mp (hsol _ _ hA)
  obtain ⟨a, ha⟩ := List.length_eq_one.mp hls.1
  have hfit : polyfit_Eigen S xValues yValues 0 weights useJacobi = some [a] := by
    simp only [polyfit_Eigen, hA, Option.bind_eq_bind, Option.some_bind, ha]
    rfl
  have hmin := hls.2
  rw [ha] at hmin
  refine ⟨fun hu => ?_, fun hu hnz => ?_, fun x' hx' => ?_⟩
  · have hsum : ∑ i ∈ Finset.range xValues.length, weightAt weights xValues i ^ 2
        = (xValues.length : K) := by
      simp [weightAt, hu]
    have hpos : 0 < ∑ i ∈ Finset.range xValues.length, weightAt weights xValues i ^ 2 := by
      rw [hsum]
      exact_mod_cast hN
    have hval := degree_zero_minimiser weights xValues yValues a hpos hmin
    have hB : ∑ i ∈ Finset.range xValues.length, weightAt weights xValues i ^ 2 * yValues.getD i 0
        = yValues.sum := by
      have := sum_range_getD yValues (fun v => v)
      rw [hlen] at this
      simpa [weightAt, hu] using this
    rw [hfit, hval, hsum, hB]
  · have hwlen : weights.length = xValues.length := ((useWeights_iff weights xValues).mp hu).2
    have hsum : ∑ i ∈ Finset.range xValues.length, weightAt weights xValues i ^ 2
        = (weights.map (fun wi => wi ^ 2)).sum := by
      have := sum_range_getD weights (fun v => v ^ 2)
      rw [hwlen] at this
      simpa [weightAt, hu] using this
    have hB : ∑ i ∈ Finset.range xValues.length, weightAt weights xValues i ^ 2 * yValues.getD i 0
        = (List.zipWith (fun wi yi => wi ^ 2 * yi) weights yValues).sum := by
      have := sum_range_getD_zipWith weights yValues (fun wi yi => wi ^ 2 * yi) (by omega)
      rw [hwlen] at this
      simpa [weightAt, hu] using this
    have hpos : 0 < ∑ i ∈ Finset.range xValues.length, weightAt weights xValues i ^ 2 := by
      obtain ⟨v, hv, hv0⟩ := hnz
      obtain ⟨i, hi, rfl⟩ := List.getElem_of_mem hv
      apply Finset.sum_pos' (fun j _ => sq_nonneg _)
      refine ⟨i, Finset.mem_range.mpr (by omega), ?_⟩
      rw [weightAt, hu, if_pos rfl, getD_eq_getElem_of_lt weights i hi]
      positivity
    have hval := degree_zero_minimiser weights xValues yValues a hpos hmin
    rw [hfit, hval, hsum, hB]
  · have hA' := assemble_eq x' yValues 0 weights (by omega)
    have hsame : assemble x' yValues 0 weights = assemble xValues yValues 0 weights := by
      rw [hA', hA, designRows_degree_zero weights xValues x' hx',
        targetEntries_congr weights xValues x' yValues hx']
    refine ⟨hsame, ?_⟩
    simp only [polyfit_Eigen, hsame]

/-- Witness of C10: weights `[1, 2]` on the values `[1, 6]` give the weighted
mean `(1 + 24) / 5 = 5`. -/
theorem C10_degree_zero_fit_witness :
    polyfit_Eigen ⟨fun _ _ => [5], fun _ _ => []⟩ ([7, 9] : List ℚ) [1, 6] 0 [1, 2] true
      = some [(List.zipWith (fun wi yi => wi ^ 2 * yi) ([1, 2] : List ℚ) [1, 6]).sum
          / (([1, 2] : List ℚ).map (fun wi => wi ^ 2)).sum] :=
  (C10_degree_zero_fit ⟨fun _ _ => [5], fun _ _ => []⟩ ([7, 9] : List ℚ) [1, 6] [1, 2] true
    (by decide) rfl
    (by
      intro X Y hA
      simp [assemble, assembleY, assembleX, fillY, fillX, fillXRow, useWeights, newVector,
        newMatrix, writeAt, writeAt2] at hA
      obtain ⟨rfl, rfl⟩ := hA
      refine ⟨rfl, fun c' hc' => ?_⟩
      obtain ⟨a, rfl⟩ := List.length_eq_one.mp hc'
      simp only [DenseSolver.solve, residualSq, dot, if_true]
      nlinarith [sq_nonneg (a - 5)])).2.1 (by decide) ⟨1, by simp, one_ne_zero⟩

/-! ## The evaluator on degenerate inputs, and Horner's rule -/

theorem polyEval_cons (a : K) (as : List K) (v : K) :
    polyEval (a :: as) v = a + v * polyEval as v := by
  simp only [polyEval, List.length_cons]
  rw [Finset.sum_range_succ', Finset.mul_sum, add_comm]
  congr 1
  · simp
  · apply Finset.sum_congr rfl
    intro j _
    simp only [List.getD_cons_succ, pow_succ]
    ring

theorem polyEval_eq_horner (cf : List K) (v : K) : polyEval cf v = horner cf v := by
  induction cf with
  | nil => simp [polyEval, horner]
  | cons a as ih => rw [polyEval_cons, horner, ih]

/-- C13 (evaluator on empty input): for every coefficient sequence, the empty
one included, `polyval` on an empty `xValues` returns the empty sequence. -/
theorem C13_polyval_empty_input (coefficients : List K) :
    polyval coefficients [] = some [] := by
  simp [polyval, polyvalOuter]

/-- C14 (evaluator with no coefficients): for every `xValues`, `polyval` with
an empty coefficient sequence succeeds and returns as many entries as
`xValues`, all of them `0`. -/
theorem C14_polyval_no_coefficients (xValues : List K) :
    ∃ yValues : List K, polyval [] xValues = some yValues ∧
      yValues.length = xValues.length ∧ (∀ v ∈ yValues, v = 0) ∧
      yValues = List.replicate xValues.length 0 := by
  have h : xValues.map (polyEval ([] : List K)) = List.replicate xValues.length 0 := by
    rw [List.eq_replicate_iff]
    refine ⟨by simp, ?_⟩
    intro b hb
    obtain ⟨v, _, rfl⟩ := List.mem_map.mp hb
    simp [polyEval]
  refine ⟨_, polyval_eq [] xValues, by simp, ?_, h⟩
  intro v hv
  rw [h] at hv
  exact (List.mem_replicate.mp hv).2

/-- C16 (power accumulation agrees with Horner's method): the accumulation loop
of `polyval`, run on all coefficients from `yVal = 0` and `xPowered = 1`, yields
the value of Horner's evaluation, and `polyval` equals the Horner evaluator
applied to every entry of `xValues`. -/
theorem C16_power_accumulation_is_horner (coefficients xValues : List K) :
    (∀ xVal : K, polyvalInner coefficients xVal coefficients.length 0 0 1
      = some (horner coefficients xVal)) ∧
    polyval coefficients xValues = some (xValues.map (horner coefficients)) := by
  constructor
  · intro xVal
    rw [polyvalInner_eq, polyEval_eq_horner]
  · rw [polyval_eq]
    congr 2
    funext v
    exact polyEval_eq_horner coefficients v

/-! ## Input shapes and index safety -/

theorem getD_take_of_lt (y : List K) (n i : Nat) (h : i < n) :
    (y.take n).getD i 0 = y.getD i 0 := by
  simp [List.getD_eq_getElem?_getD, List.getElem?_take_of_lt h]

theorem targetEntries_take (w x y : List K) :
    targetEntries w x (y.take x.length) = targetEntries w x y := by
  simp only [targetEntries]
  apply List.map_congr_left
  intro i hi
  rw [List.mem_range] at hi
  rw [getD_take_of_lt y x.length i hi]

/-- C15, as stated, fails: a call with two `xValues` and three `yValues` is
not rejected; it assembles the system of the first two samples and returns the
solver's coefficients. -/
theorem C15_mismatch_not_rejected :
    ([0, 1] : List ℚ).length ≠ ([1, 2, 3] : List ℚ).length ∧
    assemble ([0, 1] : List ℚ) [1, 2, 3] 1 [] = some ([[1, 0], [1, 1]], [1, 2]) ∧
    polyfit_Eigen ⟨fun _ _ => [1, 1], fun _ _ => [1, 1]⟩ ([0, 1] : List ℚ) [1, 2, 3] 1 [] true
      = some [1, 1] := by
  refine ⟨by decide, ?_, ?_⟩
  · simp [assemble, assembleY, assembleX, fillY, fillX, fillXRow, useWeights, newVector,
      newMatrix, writeAt, writeAt2]
  · simp [polyfit_Eigen, assemble, assembleY, assembleX, fillY, fillX, fillXRow, useWeights,
      newVector, newMatrix, writeAt, writeAt2, DenseSolver.solve, firstEntries]

/-- With fewer `yValues` than `xValues` the loop filling `Y` reads `yValues`
outside its bounds. -/
theorem short_yValues_out_of_bounds :
    assembleY ([0, 1] : List ℚ) [1] [] = none := by
  simp [assembleY, fillY, useWeights, newVector, writeAt]

/-- C15 (amended): `polyfit_Eigen` checks no input shape; when `yValues` is
longer than `xValues` the call is not rejected, the assembly succeeds using only
the first `len(xValues)` entries of `yValues`, and the call returns what the call
on `yValues` truncated to that length returns. -/
theorem C15_surplus_yValues_ignored (S : DenseSolver K) (xValues yValues : List K)
    (degree : Nat) (weights : List K) (useJacobi : Bool)
    (hlen : xValues.length < yValues.length) :
    (assemble xValues yValues degree weights).isSome = true ∧
    assemble xValues yValues degree weights
      = assemble xValues (yValues.take xValues.length) degree weights ∧
    polyfit_Eigen S xValues yValues degree weights useJacobi
      = polyfit_Eigen S xValues (yValues.take xValues.length) degree weights useJacobi := by
  have hA := assemble_eq xValues yValues degree weights (by omega)
  have hT := assemble_eq xValues (yValues.take xValues.length) degree weights
    (by simp [List.length_take]; omega)
  have hsame : assemble xValues yValues degree weights
      = assemble xValues (yValues.take xValues.length) degree weights := by
    rw [hA, hT, targetEntries_take]
  refine ⟨by rw [hA]; rfl, hsame, ?_⟩
  simp only [polyfit_Eigen, hsame]

/-- Witness of the amended C15: the third of three `yValues` is ignored. -/
theorem C15_surplus_yValues_ignored_witness :
    ([0, 1] : List ℚ).length < ([1, 2, 3] : List ℚ).length ∧
    polyfit_Eigen ⟨fun _ _ => [1, 1], fun _ _ => [1, 1]⟩ ([0, 1] : List ℚ) [1, 2, 3] 1 [] true
      = polyfit_Eigen ⟨fun _ _ => [1, 1], fun _ _ => [1, 1]⟩ ([0, 1] : List ℚ)
          (([1, 2, 3] : List ℚ).take ([0, 1] : List ℚ).length) 1 [] true :=
  ⟨by decide, (C15_surplus_yValues_ignored ⟨fun _ _ => [1, 1], fun _ _ => [1, 1]⟩
    ([0, 1] : List ℚ) [1, 2, 3] 1 [] true (by decide)).2.2⟩

/-- C17 (index safety): for `yValues` as long as `xValues`, no read of
`xValues`, `yValues` or `weights` and no write to `X` or `Y` leaves its
container (the assembly does not return `none`); `weights` is read only when it
is as long as `xValues`; when the solver's solution vector has `degree + 1`
entries (Eigen returns one per column of `X`) the returned range lies within it;
and `polyval` never indexes out of bounds, whatever its inputs. -/
theorem C17_index_safety (S : DenseSolver K) (xValues yValues : List K) (degree : Nat)
    (weights : List K) (useJacobi : Bool) (hlen : yValues.length = xValues.length)
    (hsol : ∀ X Y, assemble xValues yValues degree weights = some (X, Y) →
      (S.solve useJacobi X Y).length = degree + 1) :
    (assembleY xValues yValues weights).isSome = true ∧
    (assembleX xValues degree weights).isSome = true ∧
    (useWeights weights xValues = true → weights.length = xValues.length) ∧
    (useWeights weights xValues = false →
      assemble xValues yValues degree weights = assemble xValues yValues degree []) ∧
    (polyfit_Eigen S xValues yValues degree weights useJacobi).isSome = true ∧
    (∀ coefficients xs : List K, (polyval coefficients xs).isSome = true) := by
  have hA := assemble_eq xValues yValues degree weights (by omega)
  refine ⟨?_, ?_, ?_, ?_, ?_, ?_⟩
  · rw [assembleY_eq xValues yValues weights (by omega)]; rfl
  · rw [assembleX_eq]; rfl
  · exact fun hu => ((useWeights_iff weights xValues).mp hu).2
  · intro hu
    simp only [assemble, assembleX_inactive xValues degree weights hu,
      assembleY_inactive xValues yValues weights hu]
  · have hs := hsol _ _ hA
    simp only [polyfit_Eigen, hA, Option.bind_eq_bind, Option.some_bind]
    rw [firstEntries_of_le _ _ (by omega)]
    rfl
  · intro cf xs
    rw [polyval_eq]
    rfl

/-- Witness of C17: a weighted call on two samples. -/
theorem C17_index_safety_witness :
    (polyfit_Eigen ⟨fun _ _ => [1, 1], fun _ _ => [1, 1]⟩ ([0, 1] : List ℚ) [1, 2] 1 [3, 4]
      true).isSome = true :=
  (C17_index_safety ⟨fun _ _ => [1, 1], fun _ _ => [1, 1]⟩ ([0, 1] : List ℚ) [1, 2] 1 [3, 4]
    true rfl (fun _ _ _ => by simp [DenseSolver.solve])).2.2.2.2.1

/-! ## Zero weights -/

theorem getD_congr_of_getElem? (a b : List K) (i : Nat) (h : a[i]? = b[i]?) :
    a.getD i 0 = b.getD i 0 := by
  simp [List.getD_eq_getElem?_getD, h]

/-- The assembled system does not depend on the sample at an index of weight
zero. -/
theorem assembled_zero_weight (x y x' y' w : List K) (d k : Nat)
    (hu : useWeights w x = true) (hwk : w.getD k 0 = 0)
    (hx' : x'.length = x.length)
    (hdx : ∀ i, i ≠ k → x'[i]? = x[i]?) (hdy : ∀ i, i ≠ k → y'[i]? = y[i]?) :
    designRows w x' d = designRows w x d ∧ targetEntries w x' y' = targetEntries w x y := by
  have hu' : useWeights w x' = true := by rw [useWeights_congr w x x' hx', hu]
  constructor
  · simp only [designRows, hu, hu', if_true, hx']
    apply List.map_congr_left
    intro i _
    apply List.map_congr_left
    intro j _
    by_cases hik : i = k
    · rw [hik, hwk, mul_zero, mul_zero]
    · rw [getD_congr_of_getElem? x' x i (hdx i hik)]
  · simp only [targetEntries, hu, hu', if_true, hx']
    apply List.map_congr_left
    intro i _
    by_cases hik : i = k
    · rw [hik, hwk, mul_zero, mul_zero]
    · rw [getD_congr_of_getElem? y' y i (hdy i hik)]

/-- C18 (a zero-weighted sample is ignored): in a weighted call, at an index
`k` with `weights[k] = 0`, row `k` of `X` and entry `k` of `Y` are zero, and a
call that differs only in `xValues[k]` and `yValues[k]` assembles the same
system and returns the same result. -/
theorem C18_zero_weight_ignored (S : DenseSolver K) (xValues yValues xValues' yValues' : List K)
    (degree : Nat) (weights : List K) (k : Nat) (useJacobi : Bool)
    (hw : weights.length = xValues.length) (hlen : yValues.length = xValues.length)
    (hk : k < xValues.length) (hwk : weights[k]? = some 0)
    (hx' : xValues'.length = xValues.length) (hy' : yValues'.length = yValues.length)
    (hdx : ∀ i, i ≠ k → xValues'[i]? = xValues[i]?)
    (hdy : ∀ i, i ≠ k → yValues'[i]? = yValues[i]?) :
    ∃ (X : List (List K)) (Y : List K),
      assemble xValues yValues degree weights = some (X, Y) ∧
      (∀ j : Nat, j ≤ degree → entry X k j = some 0) ∧
      Y[k]? = some 0 ∧
      assemble xValues' yValues' degree weights = some (X, Y) ∧
      polyfit_Eigen S xValues' yValues' degree weights useJacobi
        = polyfit_Eigen S xValues yValues degree weights useJacobi := by
  have hu : useWeights weights xValues = true :=
    useWeights_of_length weights xValues hw (by omega)
  have hwk0 : weights.getD k 0 = 0 := by
    simp [List.getD_eq_getElem?_getD, hwk]
  have hA := assemble_eq xValues yValues degree weights (by omega)
  have hA' := assemble_eq xValues' yValues' degree weights (by omega)
  obtain ⟨hX, hY⟩ := assembled_zero_weight xValues yValues xValues' yValues' weights degree k
    hu hwk0 hx' hdx hdy
  rw [hX, hY] at hA'
  refine ⟨_, _, hA, ?_, ?_, hA', ?_⟩
  · intro j hj
    have hj' : j < degree + 1 := by omega
    simp [designRows, entry, hu, hk, hj', hwk, List.getElem?_eq_getElem]
  · simp [targetEntries, hu, hk, hwk, List.getElem?_eq_getElem]
  · simp only [polyfit_Eigen, hA, hA']

/-- Witness of C18: the middle sample has weight zero and is replaced. -/
theorem C18_zero_weight_ignored_witness :
    ∃ (X : List (List ℚ)) (Y : List ℚ),
      assemble ([0, 1, 2] : List ℚ) [1, 5, 3] 1 [1, 0, 1] = some (X, Y) ∧
      (∀ j : Nat, j ≤ 1 → entry X 1 j = some 0) ∧
      Y[1]? = some 0 ∧
      assemble ([0, 7, 2] : List ℚ) [1, -4, 3] 1 [1, 0, 1] = some (X, Y) ∧
      polyfit_Eigen ⟨fun _ _ => [1, 1], fun _ _ => []⟩ ([0, 7, 2] : List ℚ) [1, -4, 3] 1
          [1, 0, 1] true
        = polyfit_Eigen ⟨fun _ _ => [1, 1], fun _ _ => []⟩ ([0, 1, 2] : List ℚ) [1, 5, 3] 1
          [1, 0, 1] true :=
  C18_zero_weight_ignored ⟨fun _ _ => [1, 1], fun _ _ => []⟩ ([0, 1, 2] : List ℚ) [1, 5, 3]
    [0, 7, 2] [1, -4, 3] 1 [1, 0, 1] 1 true rfl rfl (by decide) rfl rfl rfl
    (by
      intro i hi
      rcases i with _ | _ | i
      · rfl
      · exact absurd rfl hi
      · cases i <;> rfl)
    (by
      intro i hi
      rcases i with _ | _ | i
      · rfl
      · exact absurd rfl hi
      · cases i <;> rfl)

/-! ## Uniqueness of the least-squares solution and the two methods -/

theorem mem_weighted_points (x w : List K) (v : K)
    (hv : v ∈ ((x.zip w).filter (fun p => decide (p.2 ≠ 0))).map Prod.fst) :
    ∃ i, i < x.length ∧ i < w.length ∧ x.getD i 0 = v ∧ w.getD i 0 ≠ 0 := by
  obtain ⟨p, hp, rfl⟩ := List.mem_map.mp hv
  obtain ⟨hpz, hp2⟩ := List.mem_filter.mp hp
  obtain ⟨i, hi, rfl⟩ := List.getElem_of_mem hpz
  have hi' : i < x.length ∧ i < w.length := by
    simpa [List.length_zip] using hi
  refine ⟨i, hi'.1, hi'.2, ?_, ?_⟩
  · rw [getD_eq_getElem_of_lt x i hi'.1]
    simp
  · rw [getD_eq_getElem_of_lt w i hi'.2]
    simpa using hp2

/-- The minimiser of the weighted sum of squared residuals among vectors of
`d + 1` entries is unique when `d + 1` or more distinct sample points carry a
non-zero weight. -/
theorem assembled_minimiser_unique (w x y c1 c2 : List K) (d : Nat)
    (hdist : d + 1 ≤ x.toFinset.card)
    (hdistw : useWeights w x = true →
      d + 1 ≤ (((x.zip w).filter (fun p => decide (p.2 ≠ 0))).map Prod.fst).toFinset.card)
    (h1 : c1.length = d + 1) (h2 : c2.length = d + 1)
    (hmin1 : ∀ c' : List K, c'.length = d + 1 →
      weightedSumSq w x y (x.map (polyEval c1)) ≤ weightedSumSq w x y (x.map (polyEval c')))
    (hmin2 : ∀ c' : List K, c'.length = d + 1 →
      weightedSumSq w x y (x.map (polyEval c2)) ≤ weightedSumSq w x y (x.map (polyEval c'))) :
    c1 = c2 := by
  cases hu : useWeights w x with
  | false => exact unweighted_minimiser_unique w x y c1 c2 d hu hdist h1 h2 hmin1 hmin2
  | true =>
    apply polyEval_inj c1 c2 (by omega)
      (((x.zip w).filter (fun p => decide (p.2 ≠ 0))).map Prod.fst).toFinset
      (by have := hdistw hu; omega)
    intro v hv
    rw [List.mem_toFinset] at hv
    obtain ⟨i, hi, _, rfl, hwi⟩ := mem_weighted_points x w v hv
    exact minimisers_agree w x y c1 c2 (d + 1) h1 h2 hmin1 hmin2 i hi
      (by rw [weightAt, hu, if_pos rfl]; exact hwi)

/-- C11 (method equivalence): when `xValues` holds at least `degree + 1`
distinct values and, weighting being active, at least `degree + 1` distinct
values among the samples of non-zero weight, the assembled system has a unique
least-squares solution, so that the Jacobi-SVD branch and the column-pivoting-QR
branch, each returning a least-squares solution, return the same coefficients. -/
theorem C11_method_equivalence (S : DenseSolver K) (xValues yValues : List K) (degree : Nat)
    (weights : List K) (hlen : yValues.length = xValues.length)
    (hdist : degree + 1 ≤ xValues.toFinset.card)
    (hdistw : useWeights weights xValues = true →
      degree + 1 ≤ (((xValues.zip weights).filter
        (fun p => decide (p.2 ≠ 0))).map Prod.fst).toFinset.card)
    (hsvd : ∀ X Y, assemble xValues yValues degree weights = some (X, Y) →
      IsLeastSquares X Y (degree + 1) (S.solve true X Y))
    (hqr : ∀ X Y, assemble xValues yValues degree weights = some (X, Y) →
      IsLeastSquares X Y (degree + 1) (S.solve false X Y)) :
    ∃ (X : List (List K)) (Y r : List K),
      assemble xValues yValues degree weights = some (X, Y) ∧
      (∀ c1 c2 : List K, IsLeastSquares X Y (degree + 1) c1 →
        IsLeastSquares X Y (degree + 1) c2 → c1 = c2) ∧
      polyfit_Eigen S xValues yValues degree weights true = some r ∧
      polyfit_Eigen S xValues yValues degree weights false = some r := by
  have hA := assemble_eq xValues yValues degree weights (by omega)
  have huniq : ∀ c1 c2 : List K,
      IsLeastSquares (designRows weights xValues degree)
        (targetEntries weights xValues yValues) (degree + 1) c1 →
      IsLeastSquares (designRows weights xValues degree)
        (targetEntries weights xValues yValues) (degree + 1) c2 → c1 = c2 := by
    intro c1 c2 hc1 hc2
    have m1 := (isLeastSquares_assembled xValues yValues degree weights c1).mp hc1
    have m2 := (isLeastSquares_assembled xValues yValues degree weights c2).mp hc2
    exact assembled_minimiser_unique weights xValues yValues c1 c2 degree hdist hdistw
      m1.1 m2.1 m1.2 m2.2
  have hs := hsvd _ _ hA
  have hq := hqr _ _ hA
  have hsame := huniq _ _ hq hs
  refine ⟨_, _, S.solve true (designRows weights xValues degree)
    (targetEntries weights xValues yValues), hA, huniq, ?_, ?_⟩
  · simp only [polyfit_Eigen, hA, Option.bind_eq_bind, Option.some_bind]
    rw [firstEntries_of_le _ _ (by rw [hs.1]), ← hs.1, List.take_length]
  · simp only [polyfit_Eigen, hA, Option.bind_eq_bind, Option.some_bind]
    rw [hsame, firstEntries_of_le _ _ (by rw [hs.1]), ← hs.1, List.take_length]

/-- Witness of C11: four noisy samples, the last one of weight zero, and two
solvers that agree on the assembled system only. -/
theorem C11_method_equivalence_witness :
    ∃ (X : List (List ℚ)) (Y r : List ℚ),
      assemble [0, 1, 2, 5] [0, 0, 3, 99] 1 [1, 1, 1, 0] = some (X, Y) ∧
      (∀ c1 c2 : List ℚ, IsLeastSquares X Y (1 + 1) c1 →
        IsLeastSquares X Y (1 + 1) c2 → c1 = c2) ∧
      polyfit_Eigen ⟨fun _ _ => [-1 / 2, 3 / 2],
          fun _ Y => if Y.length = 4 then [-1 / 2, 3 / 2] else []⟩
        [0, 1, 2, 5] [0, 0, 3, 99] 1 [1, 1, 1, 0] true = some r ∧
      polyfit_Eigen ⟨fun _ _ => [-1 / 2, 3 / 2],
          fun _ Y => if Y.length = 4 then [-1 / 2, 3 / 2] else []⟩
        [0, 1, 2, 5] [0, 0, 3, 99] 1 [1, 1, 1, 0] false = some r :=
  C11_method_equivalence ⟨fun _ _ => [-1 / 2, 3 / 2],
      fun _ Y => if Y.length = 4 then [-1 / 2, 3 / 2] else []⟩
    [0, 1, 2, 5] [0, 0, 3, 99] 1 [1, 1, 1, 0] rfl (by decide) (fun _ => by decide)
    (by
      intro X Y hA
      simp [assemble, assembleY, assembleX, fillY, fillX, fillXRow, useWeights, newVector,
        newMatrix, writeAt, writeAt2] at hA
      obtain ⟨rfl, rfl⟩ := hA
      refine ⟨rfl, fun c' hc' => ?_⟩
      obtain ⟨a, b, rfl⟩ := List.length_eq_two.mp hc'
      simp only [DenseSolver.solve, residualSq, dot, if_true]
      nlinarith [sq_nonneg (a + b - 1), sq_nonneg (b - 3 / 2)])
    (by
      intro X Y hA
      simp [assemble, assembleY, assembleX, fillY, fillX, fillXRow, useWeights, newVector,
        newMatrix, writeAt, writeAt2] at hA
      obtain ⟨rfl, rfl⟩ := hA
      refine ⟨rfl, fun c' hc' => ?_⟩
      obtain ⟨a, b, rfl⟩ := List.length_eq_two.mp hc'
      simp only [DenseSolver.solve, residualSq, dot, Bool.false_eq_true, if_false,
        List.length_cons, List.length_nil, if_true]
      nlinarith [sq_nonneg (a + b - 1), sq_nonneg (b - 3 / 2)])

/-! ## A heavily weighted sample -/

/-- With weight `100` at index `k` and `1` elsewhere, a weighted sum is the
unweighted sum plus `9999` times the term of index `k`. -/
theorem sum_skewed (w x : List K) (k : Nat) (f : Nat → K) (hw : w.length = x.length)
    (hk : k < x.length) (hwk : w[k]? = some 100)
    (hwi : ∀ i, i < x.length → i ≠ k → w[i]? = some 1) :
    ∑ i ∈ Finset.range x.length, weightAt w x i ^ 2 * f i
      = ∑ i ∈ Finset.range x.length, weightAt [] x i ^ 2 * f i + 9999 * f k := by
  have hu : useWeights w x = true := useWeights_of_length w x hw (by omega)
  have hterm : ∀ i ∈ Finset.range x.length,
      weightAt w x i ^ 2 * f i = weightAt [] x i ^ 2 * f i + (if i = k then 9999 * f k else 0) := by
    intro i hi
    rw [Finset.mem_range] at hi
    rw [weightAt, weightAt, hu, useWeights_nil, if_pos rfl, if_neg (by simp)]
    by_cases hik : i = k
    · subst hik
      simp only [List.getD_eq_getElem?_getD, hwk, Option.getD_some, if_true]
      ring
    · simp only [List.getD_eq_getElem?_getD, hwi i hi hik, Option.getD_some, if_neg hik]
      ring
  rw [Finset.sum_congr rfl hterm, Finset.sum_add_distrib, Finset.sum_ite_eq',
    if_pos (Finset.mem_range.mpr hk)]

/-- Normal equation of the constant column: at a minimiser of the weighted sum
of squared residuals, the weighted residuals sum to zero. -/
theorem normal_equation_const (w x y cs : List K) (d : Nat) (hcs : cs.length = d + 1)
    (hA : 0 < ∑ i ∈ Finset.range x.length, weightAt w x i ^ 2)
    (hmin : ∀ c' : List K, c'.length = d + 1 →
      weightedSumSq w x y (x.map (polyEval cs)) ≤ weightedSumSq w x y (x.map (polyEval c'))) :
    ∑ i ∈ Finset.range x.length,
      weightAt w x i ^ 2 * (y.getD i 0 - polyEval cs (x.getD i 0)) = 0 := by
  obtain ⟨a, rest, rfl⟩ := List.exists_cons_of_length_eq_add_one hcs
  set A := ∑ i ∈ Finset.range x.length, weightAt w x i ^ 2 with hAdef
  set B := ∑ i ∈ Finset.range x.length,
    weightAt w x i ^ 2 * (y.getD i 0 - polyEval (a :: rest) (x.getD i 0)) with hBdef
  have hshift : ∀ t : K, weightedSumSq w x y (x.map (polyEval ((a + t) :: rest)))
      = weightedSumSq w x y (x.map (polyEval (a :: rest))) - 2 * t * B + t ^ 2 * A := by
    intro t
    rw [hAdef, hBdef, weightedSumSq, weightedSumSq, Finset.mul_sum, Finset.mul_sum,
      ← Finset.sum_sub_distrib, ← Finset.sum_add_distrib]
    apply Finset.sum_congr rfl
    intro i hi
    rw [Finset.mem_range] at hi
    rw [getD_map_of_lt x _ i hi, getD_map_of_lt x _ i hi, polyEval_cons, polyEval_cons]
    ring
  have h := hmin ((a + B / A) :: rest) (by simpa using hcs)
  rw [hshift] at h
  have hA' : A ≠ 0 := ne_of_gt hA
  have e : 2 * (B / A) * B - (B / A) ^ 2 * A = B ^ 2 / A := by
    field_simp
    ring
  have hle : B ^ 2 / A ≤ 0 := by linarith
  have hB2 : B ^ 2 ≤ 0 := by
    have := mul_le_mul_of_nonneg_right hle hA.le
    rwa [div_mul_cancel₀ _ hA', zero_mul] at this
  exact pow_eq_zero_iff (by norm_num) |>.mp (le_antisymm hB2 (sq_nonneg B))

/-- Residual at `k` of a weighted fit against that of an unweighted fit, for
weight `100` at `k` and `1` elsewhere. -/
theorem skewed_residual (w x y cw cu : List K) (d k : Nat) (hw : w.length = x.length)
    (hk : k < x.length) (hwk : w[k]? = some 100)
    (hwi : ∀ i, i < x.length → i ≠ k → w[i]? = some 1)
    (hcw : cw.length = d + 1) (hcu : cu.length = d + 1)
    (hminw : ∀ c' : List K, c'.length = d + 1 →
      weightedSumSq w x y (x.map (polyEval cw)) ≤ weightedSumSq w x y (x.map (polyEval c')))
    (hminu : ∀ c' : List K, c'.length = d + 1 →
      weightedSumSq [] x y (x.map (polyEval cu)) ≤ weightedSumSq [] x y (x.map (polyEval c'))) :
    |y.getD k 0 - polyEval cw (x.getD k 0)| ≤ |y.getD k 0 - polyEval cu (x.getD k 0)| ∧
    (y.getD k 0 ≠ polyEval cu (x.getD k 0) →
      |y.getD k 0 - polyEval cw (x.getD k 0)| < |y.getD k 0 - polyEval cu (x.getD k 0)|) := by
  have hsplit : ∀ cs : List K, weightedSumSq w x y (x.map (polyEval cs))
      = weightedSumSq [] x y (x.map (polyEval cs))
        + 9999 * (y.getD k 0 - polyEval cs (x.getD k 0)) ^ 2 := by
    intro cs
    rw [weightedSumSq, weightedSumSq,
      sum_skewed w x k (fun i => (y.getD i 0 - (x.map (polyEval cs)).getD i 0) ^ 2) hw hk hwk hwi,
      getD_map_of_lt x _ k hk]
  have h1 := hminw cu hcu
  have h2 := hminu cw hcw
  rw [hsplit cw, hsplit cu] at h1
  have hsq : (y.getD k 0 - polyEval cw (x.getD k 0)) ^ 2
      ≤ (y.getD k 0 - polyEval cu (x.getD k 0)) ^ 2 := by linarith
  refine ⟨sq_le_sq.mp hsq, fun hne => ?_⟩
  by_contra hcon
  push_neg at hcon
  have hsq' : (y.getD k 0 - polyEval cu (x.getD k 0)) ^ 2
      ≤ (y.getD k 0 - polyEval cw (x.getD k 0)) ^ 2 := sq_le_sq.mpr hcon
  have hminu' : ∀ c' : List K, c'.length = d + 1 →
      weightedSumSq [] x y (x.map (polyEval cw)) ≤ weightedSumSq [] x y (x.map (polyEval c')) := by
    intro c' hc'
    have := hminu c' hc'
    linarith
  have hAu : ∑ i ∈ Finset.range x.length, weightAt [] x i ^ 2 = (x.length : K) := by
    simp [weightAt, useWeights_nil]
  have hposu : 0 < ∑ i ∈ Finset.range x.length, weightAt [] x i ^ 2 := by
    rw [hAu]
    exact_mod_cast (by omega : 0 < x.length)
  have hposw : 0 < ∑ i ∈ Finset.range x.length, weightAt w x i ^ 2 := by
    have := sum_skewed w x k (fun _ => (1 : K)) hw hk hwk hwi
    simp only [mul_one] at this
    rw [this]
    linarith
  have nu := normal_equation_const [] x y cw d hcw hposu hminu'
  have nw := normal_equation_const w x y cw d hcw hposw hminw
  rw [sum_skewed w x k (fun i => y.getD i 0 - polyEval cw (x.getD i 0)) hw hk hwk hwi, nu,
    zero_add] at nw
  have hrw : y.getD k 0 - polyEval cw (x.getD k 0) = 0 := by
    rcases mul_eq_zero.mp nw with h | h
    · norm_num at h
    · exact h
  rw [hrw] at hsq'
  have hru : y.getD k 0 - polyEval cu (x.getD k 0) = 0 := by
    have h0 : (y.getD k 0 - polyEval cu (x.getD k 0)) ^ 2 = 0 :=
      le_antisymm (by simpa using hsq') (sq_nonneg _)
    exact pow_eq_zero_iff (by norm_num) |>.mp h0
  exact hne (sub_eq_zero.mp hru)

/-- C12 (a skewed weight pulls the fit towards the point): with weight `100` at
index `k` and `1` elsewhere, and a solver returning a least-squares solution of
each assembled system, the residual at sample `k` of the weighted fit, evaluated
with `polyval`, is at most that of the unweighted fit in absolute value, and
strictly smaller when the unweighted fit does not pass through
`(xValues[k], yValues[k])`; no rank condition on the design matrix is needed. -/
theorem C12_skewed_weight (S : DenseSolver K) (xValues yValues : List K) (degree : Nat)
    (weights : List K) (k : Nat) (useJacobi : Bool)
    (hlen : yValues.length = xValues.length) (hw : weights.length = xValues.length)
    (hk : k < xValues.length) (hwk : weights[k]? = some 100)
    (hwi : ∀ i, i < xValues.length → i ≠ k → weights[i]? = some 1)
    (hsolu : ∀ X Y, assemble xValues yValues degree [] = some (X, Y) →
      IsLeastSquares X Y (degree + 1) (S.solve useJacobi X Y))
    (hsolw : ∀ X Y, assemble xValues yValues degree weights = some (X, Y) →
      IsLeastSquares X Y (degree + 1) (S.solve useJacobi X Y)) :
    ∃ cw cu pw pu : List K,
      polyfit_Eigen S xValues yValues degree weights useJacobi = some cw ∧
      polyfit_Eigen S xValues yValues degree [] useJacobi = some cu ∧
      polyval cw xValues = some pw ∧ polyval cu xValues = some pu ∧
      |yValues.getD k 0 - pw.getD k 0| ≤ |yValues.getD k 0 - pu.getD k 0| ∧
      (yValues.getD k 0 ≠ pu.getD k 0 →
        |yValues.getD k 0 - pw.getD k 0| < |yValues.getD k 0 - pu.getD k 0|) := by
  have hAu := assemble_eq xValues yValues degree [] (by omega)
  have hAw := assemble_eq xValues yValues degree weights (by omega)
  have hLu := hsolu _ _ hAu
  have hLw := hsolw _ _ hAw
  have mu := (isLeastSquares_assembled xValues yValues degree [] _).mp hLu
  have mw := (isLeastSquares_assembled xValues yValues degree weights _).mp hLw
  have hres := skewed_residual weights xValues yValues _ _ degree k hw hk hwk hwi
    mw.1 mu.1 mw.2 mu.2
  refine ⟨S.solve useJacobi (designRows weights xValues degree)
      (targetEntries weights xValues yValues),
    S.solve useJacobi (designRows [] xValues degree) (targetEntries [] xValues yValues),
    _, _, ?_, ?_, polyval_eq _ xValues, polyval_eq _ xValues, ?_⟩
  · simp only [polyfit_Eigen, hAw, Option.bind_eq_bind, Option.some_bind]
    rw [firstEntries_of_le _ _ (by rw [hLw.1]), ← hLw.1, List.take_length]
  · simp only [polyfit_Eigen, hAu, Option.bind_eq_bind, Option.some_bind]
    rw [firstEntries_of_le _ _ (by rw [hLu.1]), ← hLu.1, List.take_length]
  · rw [getD_map_of_lt xValues _ k hk, getD_map_of_lt xValues _ k hk]
    exact hres

/-- Witness of C12: a constant fit to the values `0` and `10001`, the first
sample weighted `100`; the residual there drops from `10001 / 2` to `1`. -/
theorem C12_skewed_weight_witness :
    ∃ cw cu pw pu : List ℚ,
      polyfit_Eigen ⟨fun X _ => if X = [[1], [1]] then [10001 / 2] else [1], fun _ _ => []⟩
        [3, 4] [0, 10001] 0 [100, 1] true = some cw ∧
      polyfit_Eigen ⟨fun X _ => if X = [[1], [1]] then [10001 / 2] else [1], fun _ _ => []⟩
        [3, 4] [0, 10001] 0 [] true = some cu ∧
      polyval cw [3, 4] = some pw ∧ polyval cu [3, 4] = some pu ∧
      |([0, 10001] : List ℚ).getD 0 0 - pw.getD 0 0|
        ≤ |([0, 10001] : List ℚ).getD 0 0 - pu.getD 0 0| ∧
      (([0, 10001] : List ℚ).getD 0 0 ≠ pu.getD 0 0 →
        |([0, 10001] : List ℚ).getD 0 0 - pw.getD 0 0|
          < |([0, 10001] : List ℚ).getD 0 0 - pu.getD 0 0|) :=
  C12_skewed_weight ⟨fun X _ => if X = [[1], [1]] then [10001 / 2] else [1], fun _ _ => []⟩
    [3, 4] [0, 10001] 0 [100, 1] 0 true rfl rfl (by decide) rfl
    (by
      intro i hi hik
      simp only [List.length_cons, List.length_nil] at hi
      interval_cases i
      · exact absurd rfl hik
      · rfl)
    (by
      intro X Y hA
      simp [assemble, assembleY, assembleX, fillY, fillX, fillXRow, useWeights, newVector,
        newMatrix, writeAt, writeAt2] at hA
      obtain ⟨rfl, rfl⟩ := hA
      refine ⟨rfl, fun c' hc' => ?_⟩
      obtain ⟨a, rfl⟩ := List.length_eq_one.mp hc'
      simp only [DenseSolver.solve, residualSq, dot, if_true]
      nlinarith [sq_nonneg (a - 10001 / 2)])
    (by
      intro X Y hA
      simp [assemble, assembleY, assembleX, fillY, fillX, fillXRow, useWeights, newVector,
        newMatrix, writeAt, writeAt2] at hA
      obtain ⟨rfl, rfl⟩ := hA
      have hX : ¬ ([[100], [1]] : List (List ℚ)) = [[1], [1]] := by
        simp
      refine ⟨by simp [DenseSolver.solve, hX], fun c' hc' => ?_⟩
      obtain ⟨a, rfl⟩ := List.length_eq_one.mp hc'
      simp only [DenseSolver.solve, residualSq, dot, if_true, if_neg hX]
      nlinarith [sq_nonneg (a - 1)])

/-! ## Single-precision storage -/

theorem roundHalfEven_intCast (z : ℤ) : roundHalfEven (z : ℚ) = z := by
  simp [roundHalfEven]

/-- Value of `roundBinary` on a positive `q` of known exponent `e`. -/
theorem roundBinary_eq (p : Nat) (emin e : Int) (q : ℚ) (hq : 0 < q)
    (h1 : (2 : ℚ) ^ e ≤ q) (h2 : q < (2 : ℚ) ^ (e + 1)) (he : emin ≤ e) :
    roundBinary p emin q
      = roundHalfEven (q / 2 ^ (e - ((p : Int) - 1))) * 2 ^ (e - ((p : Int) - 1)) := by
  have hlog : Int.log 2 |q| = e := by
    rw [abs_of_pos hq]
    have a : e ≤ Int.log 2 q :=
      (Int.zpow_le_iff_le_log (by norm_num) hq).mp (by exact_mod_cast h1)
    have b : Int.log 2 q < e + 1 :=
      (Int.lt_zpow_iff_log_lt (by norm_num) hq).mp (by exact_mod_cast h2)
    omega
  rw [roundBinary, if_neg (ne_of_gt hq), hlog, max_eq_left he]

/-- A positive value that is an integer multiple of the spacing at its exponent
is its own rounding. -/
theorem roundBinary_exact (p : Nat) (emin e : Int) (q : ℚ) (z : ℤ) (hq : 0 < q)
    (h1 : (2 : ℚ) ^ e ≤ q) (h2 : q < (2 : ℚ) ^ (e + 1)) (he : emin ≤ e)
    (hz : q / 2 ^ (e - ((p : Int) - 1)) = (z : ℚ)) :
    roundBinary p emin q = q := by
  rw [roundBinary_eq p emin e q hq h1 h2 he, hz, roundHalfEven_intCast]
  exact ((div_eq_iff (zpow_ne_zero _ (two_ne_zero))).mp hz).symm

theorem roundF32_one : roundF32 1 = 1 :=
  roundBinary_exact 24 (-126) 0 1 8388608 (by norm_num) (by norm_num) (by norm_num)
    (by norm_num) (by norm_num [zpow_neg])

theorem roundF32_6001 : roundF32 6001 = 6001 :=
  roundBinary_exact 24 (-126) 12 6001 12290048 (by norm_num) (by norm_num) (by norm_num)
    (by norm_num) (by norm_num [zpow_neg])

theorem roundF32_36012000 : roundF32 36012000 = 36012000 :=
  roundBinary_exact 24 (-126) 25 36012000 9003000 (by norm_num) (by norm_num) (by norm_num)
    (by norm_num) (by norm_num)

theorem roundF64_6001 : roundF64 6001 = 6001 :=
  roundBinary_exact 53 (-1022) 12 6001 6598169278283776 (by norm_num) (by norm_num)
    (by norm_num) (by norm_num) (by norm_num [zpow_neg])

theorem roundF64_36012001 : roundF64 36012001 = 36012001 :=
  roundBinary_exact 53 (-1022) 25 36012001 4833448954953728 (by norm_num) (by norm_num)
    (by norm_num) (by norm_num) (by norm_num [zpow_neg])

/-- The square of `6001` lies between `2^25` and `2^26`, where `float` values
are `4` apart, and rounds down to the multiple of `4` below it. -/
theorem roundF32_36012001 : roundF32 36012001 = 36012000 := by
  rw [roundF32, roundBinary_eq 24 (-126) 25 36012001 (by norm_num) (by norm_num) (by norm_num)
    (by norm_num)]
  have hfl : ⌊(36012001 : ℚ) / 2 ^ ((25 : ℤ) - (((24 : ℕ) : ℤ) - 1))⌋ = 9003000 := by
    rw [Int.floor_eq_iff]
    constructor <;> norm_num
  have hlt : (36012001 : ℚ) / 2 ^ ((25 : ℤ) - (((24 : ℕ) : ℤ) - 1))
      - ((9003000 : ℤ) : ℚ) < 1 / 2 := by
    norm_num
  rw [roundHalfEven, hfl, if_pos hlt]
  norm_num

/-- The integer `2^24 + 1` is a `double` halfway between two `float` values
and rounds to the even one, `2^24`. -/
theorem roundF32_16777217 : roundF32 16777217 = 16777216 := by
  rw [roundF32, roundBinary_eq 24 (-126) 24 16777217 (by norm_num) (by norm_num) (by norm_num)
    (by norm_num)]
  have hfl : ⌊(16777217 : ℚ) / 2 ^ ((24 : ℤ) - (((24 : ℕ) : ℤ) - 1))⌋ = 8388608 := by
    rw [Int.floor_eq_iff]
    constructor <;> norm_num
  have heq : (16777217 : ℚ) / 2 ^ ((24 : ℤ) - (((24 : ℕ) : ℤ) - 1))
      - ((8388608 : ℤ) : ℚ) = 1 / 2 := by
    norm_num
  rw [roundHalfEven, hfl, heq, if_neg (lt_irrefl _), if_neg (lt_irrefl _), if_pos (by decide)]
  norm_num

theorem fillYRounded_id (useW : Bool) (y w : List K) :
    ∀ (n i : Nat) (Y : List K), fillYRounded id id useW y w n i Y = fillY useW y w n i Y := by
  intro n
  induction n with
  | zero => intro i Y; simp [fillYRounded, fillY]
  | succ n ih => intro i Y; simp [fillYRounded, fillY, ih]

theorem fillXRowRounded_id (useW : Bool) (x w : List K) (nRow : Nat) :
    ∀ (n nCol : Nat) (nVal : K) (X : List (List K)),
      fillXRowRounded id id useW x w nRow n nCol nVal X = fillXRow useW x w nRow n nCol nVal X := by
  intro n
  induction n with
  | zero => intro nCol nVal X; simp [fillXRowRounded, fillXRow]
  | succ n ih => intro nCol nVal X; simp [fillXRowRounded, fillXRow, ih]

theorem fillXRounded_id (useW : Bool) (x w : List K) (m : Nat) :
    ∀ (n nRow : Nat) (X : List (List K)),
      fillXRounded id id useW x w m n nRow X = fillX useW x w m n nRow X := by
  intro n
  induction n with
  | zero => intro nRow X; simp [fillXRounded, fillX]
  | succ n ih => intro nRow X; simp [fillXRounded, fillX, ih, fillXRowRounded_id]

/-- Without rounding, the assembly of `X` under explicit roundings is the exact
assembly. -/
theorem assembleXRounded_id (x : List K) (d : Nat) (w : List K) :
    assembleXRounded id id x d w = assembleX x d w := by
  simp [assembleXRounded, assembleX, fillXRounded_id]

/-- Without rounding, the assembly of `Y` under explicit roundings is the exact
assembly. -/
theorem assembleYRounded_id (x y w : List K) :
    assembleYRounded id id x y w = assembleY x y w := by
  simp [assembleYRounded, assembleY, fillYRounded_id]

/-- C3, read without "in exact arithmetic", fails: for `xValues = [6001]` and
degree `2` the entry stored in column `2` is `36012000`, not
`6001^2 = 36012001`, both for `T = float` (the product is rounded) and for
`T = double` (the store into `MatrixXf` rounds). -/
theorem C3_stored_power_is_rounded :
    assembleXRounded roundF32 roundF32 [6001] 2 [] = some [[1, 6001, 36012000]] ∧
    assembleXRounded roundF64 roundF32 [6001] 2 [] = some [[1, 6001, 36012000]] ∧
    useWeights ([] : List ℚ) [6001] = false ∧
    entry ([[1, 6001, 36012000]] : List (List ℚ)) 0 2 = some 36012000 ∧
    (36012000 : ℚ) ≠ 6001 ^ 2 := by
  refine ⟨?_, ?_, by simp [useWeights], by simp [entry], by norm_num⟩
  · norm_num [assembleXRounded, fillXRounded, fillXRowRounded, useWeights, newMatrix,
      writeAt2, writeAt, roundF32_one, roundF32_6001, roundF32_36012001, roundF32_36012000,
      List.replicate]
  · norm_num [assembleXRounded, fillXRounded, fillXRowRounded, useWeights, newMatrix,
      writeAt2, writeAt, roundF32_one, roundF32_6001, roundF32_36012001, roundF64_6001,
      roundF64_36012001, List.replicate]

/-- C4, read without "in exact arithmetic", fails: with `T = float` and
weighting active the entry stored for `yValues = [6001]`, `weights = [6001]` is
`36012000`, not the product `36012001`; with `T = double` and weighting inactive
the entry stored for `yValues = [16777217]` is `16777216`. -/
theorem C4_stored_entry_is_rounded :
    assembleYRounded roundF32 roundF32 [0] [6001] [6001] = some [36012000] ∧
    useWeights ([6001] : List ℚ) [0] = true ∧
    (36012000 : ℚ) ≠ 6001 * 6001 ∧
    assembleYRounded roundF64 roundF32 [0] [16777217] [] = some [16777216] ∧
    useWeights ([] : List ℚ) [0] = false ∧
    (16777216 : ℚ) ≠ 16777217 := by
  refine ⟨?_, by simp [useWeights], by norm_num, ?_, by simp [useWeights], by norm_num⟩
  · norm_num [assembleYRounded, fillYRounded, useWeights, newVector, writeAt,
      roundF32_36012001, roundF32_36012000]
  · norm_num [assembleYRounded, fillYRounded, useWeights, newVector, writeAt,
      roundF32_16777217]

end PolyfitEigen
